import Mathlib

/-!
Verification of the in-memory editable text engine of the task tracker:
the coordinate mapper and boundary scanner (`src/storage/span_edit.rs`,
`src/storage/text_edit.rs`), the edit executor and undo/redo log
(`src/storage/text_edit.rs`), and the keyboard binding layer
(`src/storage/keyboard_edit.rs`).

The external packed-text buffer (`crop::Rope`) is modelled as a `List Char`
with byte offsets measured in UTF-8 bytes (`Char.utf8Size`); its line-oriented
API is modelled with `'\n'` as the line terminator.  All byte slicing in the
engine happens at character boundaries; the model's byte slicing truncates to
the preceding boundary where the rope would panic.
-/

namespace TasksSpec

/-- The modelled rope contents: a sequence of Unicode scalar values. -/
abbrev Txt := List Char

/-- Models `chumsky::text::Char::is_newline` for `char`:
the seven newline-class characters LF, CR, VT, FF, NEL, LS, PS. -/
def isNewlineChar (c : Char) : Bool :=
  c == '\n' || c == '\r' || c == '\x0B' || c == '\x0C' ||
  c == '\u0085' || c == '\u2028' || c == '\u2029'

/-- Models `chumsky::text::Char::is_inline_whitespace` for `char`:
a space or a tab. -/
def isInlineWhitespaceChar (c : Char) : Bool :=
  c == ' ' || c == '\t'

/-- Models Rust `char::is_whitespace` (the Unicode `White_Space` property,
25 code points). -/
def isWhitespaceChar (c : Char) : Bool :=
  c == '\t' || c == '\n' || c == '\x0B' || c == '\x0C' || c == '\r' ||
  c == ' ' || c == '\u0085' || c == '\u00A0' || c == '\u1680' ||
  (decide (0x2000 ≤ c.toNat) && decide (c.toNat ≤ 0x200A)) ||
  c == '\u2028' || c == '\u2029' || c == '\u202F' || c == '\u205F' ||
  c == '\u3000'

/-- Models Rust `char::is_alphanumeric` on the ASCII range (the full Unicode
`Alphabetic`/`Nd`/`Nl`/`No` tables of the external standard library are out of
scope; the two predicates agree on every ASCII character). -/
def isAlphanumericChar (c : Char) : Bool :=
  c.isAlphanum

/-- Total UTF-8 byte length of a text (models `Rope::byte_len`). -/
def byteLen : Txt → Nat
  | [] => 0
  | c :: r => c.utf8Size + byteLen r

/-- The characters of the first `n` bytes (models `byte_slice(..n)` at a
character boundary; truncates to the preceding boundary otherwise). -/
def byteTake : Nat → Txt → Txt
  | _, [] => []
  | n, c :: r => if c.utf8Size ≤ n then c :: byteTake (n - c.utf8Size) r else []

/-- The characters from byte `n` on (models `byte_slice(n..)` at a character
boundary). -/
def byteDrop : Nat → Txt → Txt
  | _, [] => []
  | n, c :: r => if c.utf8Size ≤ n then byteDrop (n - c.utf8Size) r else c :: r

/-- Accumulator worker for `rawLines`; `acc` holds the reversed characters of
the current, still unterminated line. -/
def rawLinesAux : Txt → Txt → List Txt
  | acc, [] => if acc.isEmpty then [] else [acc.reverse]
  | acc, c :: rest =>
    if c = '\n' then (acc.reverse ++ ['\n']) :: rawLinesAux [] rest
    else rawLinesAux (c :: acc) rest

/-- The raw lines of a text (models `Rope::raw_lines`): each line keeps its
terminating `'\n'`; a trailing newline does not open a final empty line, so
the raw lines concatenate back to the text and are all nonempty. -/
def rawLines (s : Txt) : List Txt := rawLinesAux [] s

/-- Number of lines (models `Rope::line_len`). -/
def lineLen (s : Txt) : Nat := (rawLines s).length

/-- Sum of the byte lengths of a list of texts. -/
def sumBytes (L : List Txt) : Nat := (L.map byteLen).sum

/-- Byte offset of the start of line `i` (models `Rope::byte_of_line`). -/
def byteOfLine (s : Txt) (i : Nat) : Nat := sumBytes ((rawLines s).take i)

/-- Index search worker for `lineOfByte`. -/
def lineOfByteAux : List Txt → Nat → Nat
  | [], _ => 0
  | l :: rest, b => if b < byteLen l then 0 else 1 + lineOfByteAux rest (b - byteLen l)

/-- The line containing byte `b` (models `Rope::line_of_byte` for
`b < byte_len`; a `'\n'` byte belongs to the line it terminates). -/
def lineOfByte (s : Txt) (b : Nat) : Nat := lineOfByteAux (rawLines s) b

/-- Strip one terminating `'\n'`. -/
def stripNl (l : Txt) : Txt := if l.getLast? = some '\n' then l.dropLast else l

/-- Content of line `i`, without its terminator (models `Rope::line`). -/
def lineAt (s : Txt) (i : Nat) : Txt := stripNl ((rawLines s).getD i [])

/-- The line contents in order (models the `Rope::lines` iterator). -/
def cropLines (s : Txt) : List Txt := (rawLines s).map stripNl

/-- A cursor address: `line` and `column`, the column counted in characters.
Models `storage::editing::Pos`. -/
structure Pos where
  line : Nat
  column : Nat
deriving DecidableEq

/-- The single error kind of the engine. Models `span_edit::EditErr`. -/
inductive EditErr
  | OutOfBounds
deriving DecidableEq

/-- Models `self.0.raw_lines().next_back().is_none_or(|l| l.chars().next_back().is_none_or(|c| c.is_newline()))`
from `span_edit.rs` (used by `is_simulated_final_newline` and
`get_line_char_len`). -/
def lastEndsNewline (s : Txt) : Bool :=
  match (rawLines s).getLast? with
  | none => true
  | some l =>
    match l.getLast? with
    | none => true
    | some c => isNewlineChar c

/-- Models `self.0.chars().next_back().is_none_or(|c| c.is_newline())` from
`pos_from_byte`. -/
def lastCharNewline (s : Txt) : Bool :=
  match s.getLast? with
  | none => true
  | some c => isNewlineChar c

/-- Models `SpanEditable::is_simulated_final_newline`: the valid cursor slot
one past the last real line. -/
def is_simulated_final_newline (s : Txt) (pos : Pos) : Bool :=
  pos.line == lineLen s && pos.column == 0 && lastEndsNewline s

/-- Models `SpanEditable::get_byte` (the coordinate mapper's
`position_to_byte`). -/
def get_byte (s : Txt) (pos : Pos) : Except EditErr Nat :=
  if is_simulated_final_newline s pos then .ok (byteLen s)
  else if lineLen s ≤ pos.line then .error .OutOfBounds
  else
    let line := lineAt s pos.line
    if line.length < pos.column then .error .OutOfBounds
    else .ok (byteOfLine s pos.line + byteLen (line.take pos.column))

/-- Models `SpanEditable::get_line_char_len`. -/
def get_line_char_len (s : Txt) (line : Nat) : Except EditErr Nat :=
  if line == lineLen s && lastEndsNewline s then .ok 0
  else if lineLen s ≤ line then .error .OutOfBounds
  else .ok (lineAt s line).length

/-- Models `SpanEditable::pos_from_byte` (the coordinate mapper's
`byte_to_position`). -/
def pos_from_byte (s : Txt) (b : Nat) : Except EditErr Pos :=
  if byteLen s < b then .error .OutOfBounds
  else if b == byteLen s then
    if lastCharNewline s then .ok ⟨lineLen s, 0⟩
    else .ok ⟨lineLen s - 1, ((cropLines s).getLastD []).length⟩
  else
    let line := lineOfByte s b
    let lineByteOffset := b - byteOfLine s line
    .ok ⟨line, (byteTake lineByteOffset (lineAt s line)).length⟩

/-- A primitive invertible buffer mutation, in cursor coordinates.
Models `span_edit::EditOp`. -/
inductive EditOp
  | Insert (pos : Pos) (text : Txt)
  | Delete (start : Pos) (stop : Pos)
deriving DecidableEq

/-- A committed edit paired with its exact inverse.  `LogEntry` is imported by
`text_edit.rs` from `span_edit.rs`, where its definition is not present in the
sources; its shape is taken from spec §3. -/
structure LogEntry where
  edit : EditOp
  undo : EditOp
deriving DecidableEq

/-- Strip one trailing carriage return. -/
def stripCR (l : Txt) : Txt := if l.getLast? = some '\r' then l.dropLast else l

/-- One element of Rust `str::lines()`: a raw line loses its terminating
`'\n'` together with an immediately preceding `'\r'`; an unterminated final
raw line is kept whole. -/
def rustLine (l : Txt) : Txt :=
  if l.getLast? = some '\n' then stripCR l.dropLast else l

/-- Models Rust `str::lines()` (used by `calc_cursor_pos` on the inserted
text): lines split on `'\n'`, a trailing newline does not open a final empty
line, and a `'\r'` immediately before a `'\n'` is stripped. -/
def rustLines (t : Txt) : List Txt := (rawLines t).map rustLine

/-- Models `TextEditable::calc_cursor_pos`: the cursor position after an
edit.  For an `Insert`, `new_lines` counts the newline-class characters of
the text, while the column in the multi-line case is the character count of
`t.lines().last()` (Rust `str::lines` semantics). -/
def calc_cursor_pos (op : EditOp) : Pos :=
  match op with
  | .Insert pos t =>
    let newLines := (t.filter isNewlineChar).length
    let newColumn :=
      if newLines = 0 then pos.column + t.length
      else ((rustLines t).getLastD []).length
    ⟨pos.line + newLines, newColumn⟩
  | .Delete start _ => start

/-- The characters of the half-open byte range `a..b`. -/
def deletedRange (s : Txt) (a b : Nat) : Txt := byteTake (b - a) (byteDrop a s)

/-- Modelled from the spec: the version of `SpanEditable::apply_edit` that
returns the `LogEntry` for the committed edit is referenced by `text_edit.rs`
but missing from the sources (the copy in `span_edit.rs` lines 35-49 performs
only the mutation).  The mutation below follows that copy: an `Insert`
resolves `pos` through `get_byte` and splices the text in at that byte
offset; a `Delete` resolves both endpoints and removes the byte range
between them.  The returned entry pairs the edit with its exact inverse as
described in spec §3/§4.3: the inverse of an `Insert` is the `Delete`
spanning the pre-edit cursor to the post-edit cursor, and the inverse of a
`Delete` is an `Insert` of the removed text at `start`. -/
def apply_edit (s : Txt) (op : EditOp) : Except EditErr (Txt × LogEntry) :=
  match op with
  | .Insert pos t => do
    let b ← get_byte s pos
    pure (byteTake b s ++ t ++ byteDrop b s, ⟨op, .Delete pos (calc_cursor_pos op)⟩)
  | .Delete start stop => do
    let a ← get_byte s start
    let b ← get_byte s stop
    pure (byteTake a s ++ byteDrop b s, ⟨op, .Insert start (deletedRange s a b)⟩)

/-- Models `text_edit::LeftRight`. -/
inductive LeftRight
  | Left
  | Right
deriving DecidableEq

/-- Models `text_edit::Unit`. -/
inductive Unit
  | Char
  | Word
  | Line
deriving DecidableEq

/-- Models `text_edit::MoveDir`. -/
inductive MoveDir
  | Horizontal (unit : Unit) (dir : LeftRight)
  | Up
  | Down
deriving DecidableEq

/-- Models `text_edit::TextOp`, the caller-facing operation vocabulary. -/
inductive TextOp
  | Move (dir : MoveDir)
  | InsertText (t : Txt)
  | Delete (unit : Unit) (dir : LeftRight)
  | Redo
  | Undo
deriving DecidableEq

/-- Models `editing::EditResult`. -/
inductive EditResult
  | Noop
  | Dirty
deriving DecidableEq

/-- Models `TextEditable::saturating_char_offset`: one Unicode scalar left or
right of the cursor's byte offset. -/
def saturating_char_offset (s : Txt) (cursor : Pos) (dir : LeftRight) :
    Except EditErr Pos :=
  match get_byte s cursor with
  | .error e => .error e
  | .ok byte =>
    match dir with
    | .Left =>
      let n := match (byteTake byte s).getLast? with
        | some c => c.utf8Size
        | none => 0
      pos_from_byte s (byte - n)
    | .Right =>
      let n := match (byteDrop byte s).head? with
        | some c => c.utf8Size
        | none => 0
      pos_from_byte s (byte + n)

/-- The character classes of the word scan's second phase. -/
inductive CharType
  | Alphanumeric
  | Whitespace
  | Newline
  | Other
deriving DecidableEq

/-- The classification used inside `count_bytes_till_boundary`'s loop in
`saturating_word_boundary` (alphanumeric before newline before whitespace). -/
def classify (c : Char) : CharType :=
  if isAlphanumericChar c then .Alphanumeric
  else if isNewlineChar c then .Newline
  else if isWhitespaceChar c then .Whitespace
  else .Other

/-- The second-phase loop of the word scan: consume characters while they
share the class of the first character seen (`last_type` starts out unset). -/
def wordTail : Option CharType → List Char → Nat
  | _, [] => 0
  | none, c :: rest => c.utf8Size + wordTail (some (classify c)) rest
  | some last, c :: rest =>
    if classify c = last then c.utf8Size + wordTail (some last) rest else 0

/-- Models `count_bytes_till_boundary` in
`TextEditable::saturating_word_boundary`.  Phase 1 sums the UTF-8 byte
lengths of a leading newline run (if the first character is newline-class)
or a leading inline-whitespace run; the source then resumes with
`it.skip(count)`, which skips `count` iterator items even though `count` is
a byte total, and phase 2 consumes a maximal same-class run from there. -/
def count_bytes_till_word_boundary (l : List Char) : Nat :=
  let count :=
    if (l.head?.map isNewlineChar).getD false then
      ((l.takeWhile isNewlineChar).map Char.utf8Size).sum
    else
      ((l.takeWhile isInlineWhitespaceChar).map Char.utf8Size).sum
  count + wordTail none (l.drop count)

/-- Models `TextEditable::saturating_word_boundary`. -/
def saturating_word_boundary (s : Txt) (cursor : Pos) (dir : LeftRight) :
    Except EditErr Pos :=
  match get_byte s cursor with
  | .error e => .error e
  | .ok byte =>
    match dir with
    | .Left =>
      pos_from_byte s (byte - count_bytes_till_word_boundary (byteTake byte s).reverse)
    | .Right =>
      pos_from_byte s (byte + count_bytes_till_word_boundary (byteDrop byte s))

/-- Models `count_bytes_till_boundary` in
`TextEditable::saturating_line_boundary`: if the first character is
newline-class consume exactly it, otherwise consume up to (not including)
the first newline-class character. -/
def count_bytes_till_line_boundary (l : List Char) : Nat :=
  if (l.head?.map isNewlineChar).getD false then
    (l.head?.map Char.utf8Size).getD 0
  else
    ((l.takeWhile (fun c => !isNewlineChar c)).map Char.utf8Size).sum

/-- Models `TextEditable::saturating_line_boundary`. -/
def saturating_line_boundary (s : Txt) (cursor : Pos) (dir : LeftRight) :
    Except EditErr Pos :=
  match get_byte s cursor with
  | .error e => .error e
  | .ok byte =>
    match dir with
    | .Left =>
      pos_from_byte s (byte - count_bytes_till_line_boundary (byteTake byte s).reverse)
    | .Right =>
      pos_from_byte s (byte + count_bytes_till_line_boundary (byteDrop byte s))

/-- Models `TextEditable::saturating_offset`. -/
def saturating_offset (s : Txt) (cursor : Pos) (unit : Unit) (dir : LeftRight) :
    Except EditErr Pos :=
  match unit with
  | .Char => saturating_char_offset s cursor dir
  | .Word => saturating_word_boundary s cursor dir
  | .Line => saturating_line_boundary s cursor dir

/-- The undo/redo log: committed entries plus the cursor `next_index`.
Models `text_edit::Log`. -/
structure Log where
  entries : List LogEntry
  next_index : Nat
deriving DecidableEq

/-- Models `Log::push_entry`: truncate the entries to `next_index`
(discarding the redo branch), append, and advance `next_index`. -/
def Log.push_entry (l : Log) (e : LogEntry) : Log :=
  { entries := l.entries.take l.next_index ++ [e], next_index := l.next_index + 1 }

/-- Models `Log::undo`.  State passing replaces `&mut self`; the source
indexes `entries[next_index]` (a panic when absent), the model reads
`get?`. -/
def Log.undo (l : Log) : Option EditOp × Log :=
  if l.next_index = 0 then (none, l)
  else ((l.entries.get? (l.next_index - 1)).map LogEntry.undo,
    { l with next_index := l.next_index - 1 })

/-- Models `Log::redo`: read the entry at `next_index` and advance only when
one exists. -/
def Log.redo (l : Log) : Option EditOp × Log :=
  match l.entries.get? l.next_index with
  | some e => (some e.edit, { l with next_index := l.next_index + 1 })
  | none => (none, l)

/-- The editable field: buffer plus log. Models `text_edit::TextEditable`. -/
structure TextEditable where
  inner : Txt
  log : Log
deriving DecidableEq

/-- Models `impl From<Rope> for TextEditable`. -/
def textEditableOfRope (s : Txt) : TextEditable := ⟨s, ⟨[], 0⟩⟩

/-- Models `TextEditable::handle_edit_event`: the edit executor.  State
passing replaces `&mut self`; every `unwrap!` failure returns
`(EditResult::Noop, None)` with the buffer untouched. -/
def handle_edit_event (te : TextEditable) (cursor : Pos) (op : TextOp) :
    TextEditable × EditResult × Option Pos :=
  match op with
  | .Move md =>
    match md with
    | .Up =>
      if 0 < cursor.line then
        match get_line_char_len te.inner (cursor.line - 1) with
        | .error _ => (te, .Noop, none)
        | .ok charLen =>
          (te, .Noop, some ⟨cursor.line - 1, min cursor.column charLen⟩)
      else (te, .Noop, some cursor)
    | .Down =>
      if cursor.line < lineLen te.inner then
        match get_line_char_len te.inner (cursor.line + 1) with
        | .error _ => (te, .Noop, none)
        | .ok charLen =>
          (te, .Noop, some ⟨cursor.line + 1, min cursor.column charLen⟩)
      else (te, .Noop, some cursor)
    | .Horizontal u d =>
      match saturating_offset te.inner cursor u d with
      | .error _ => (te, .Noop, none)
      | .ok p => (te, .Noop, some p)
  | .InsertText t =>
    let editOp := EditOp.Insert cursor t
    let newPos := calc_cursor_pos editOp
    match apply_edit te.inner editOp with
    | .error _ => (te, .Noop, none)
    | .ok (s', entry) => (⟨s', te.log.push_entry entry⟩, .Dirty, some newPos)
  | .Delete u d =>
    match saturating_offset te.inner cursor u d with
    | .error _ => (te, .Noop, none)
    | .ok other =>
      let startStop := match d with
        | .Left => (other, cursor)
        | .Right => (cursor, other)
      let editOp := EditOp.Delete startStop.1 startStop.2
      let newPos := calc_cursor_pos editOp
      match apply_edit te.inner editOp with
      | .error _ => (te, .Noop, none)
      | .ok (s', entry) => (⟨s', te.log.push_entry entry⟩, .Dirty, some newPos)
  | .Redo =>
    match te.log.redo with
    | (some e, log') =>
      let newPos := calc_cursor_pos e
      match apply_edit te.inner e with
      | .error _ => (⟨te.inner, log'⟩, .Noop, none)
      | .ok (s', _) => (⟨s', log'⟩, .Dirty, some newPos)
    | (none, _) => (te, .Noop, none)
  | .Undo =>
    match te.log.undo with
    | (some e, log') =>
      let newPos := calc_cursor_pos e
      match apply_edit te.inner e with
      | .error _ => (⟨te.inner, log'⟩, .Noop, none)
      | .ok (s', _) => (⟨s', log'⟩, .Dirty, some newPos)
    | (none, _) => (te, .Noop, none)

/-- One keyboard-driven editable field: the `TextEditable` plus the cursor it
owns.  Models `keyboard_edit::KeyboardEditable`. -/
structure KeyboardEditable where
  text : TextEditable
  cursor : Pos
deriving DecidableEq

/-- Models `KeyboardEditable::from_rope`: construction from an initial text
blob, optionally placing the cursor at the end of the task. -/
def from_rope (s : Txt) (cursor_at_end : Bool) : KeyboardEditable :=
  { cursor :=
      if cursor_at_end then
        ⟨lineLen s - 1, ((cropLines s).getLastD []).length⟩
      else ⟨0, 0⟩,
    text := textEditableOfRope s }

/-- Models `KeyboardEditable::apply_text_op`: run the edit executor and store
the returned cursor, keeping the old one when none is produced. -/
def apply_text_op (ke : KeyboardEditable) (op : TextOp) :
    KeyboardEditable × EditResult :=
  let r := handle_edit_event ke.text ke.cursor op
  (⟨r.1, match r.2.2 with | some p => p | none => ke.cursor⟩, r.2.1)

/-- Number of `'\n'` characters. -/
def countNl (p : Txt) : Nat := p.count '\n'

/-- The characters after the last `'\n'` (all of `p` when it has none). -/
def tailAfterNl (p : Txt) : Txt := (p.reverse.takeWhile (fun c => c ≠ '\n')).reverse

/-- The canonical cursor position addressing the byte offset right after the
characters of `p`: its line number counts the newlines of `p` and its column
the characters after the last one. -/
def canonPos (p : Txt) : Pos := ⟨countNl p, (tailAfterNl p).length⟩

/-- Equality of `Except` values is decidable when both components' are; used
to evaluate the engine at concrete inputs. -/
instance {e a : Type} [DecidableEq e] [DecidableEq a] : DecidableEq (Except e a) := fun x y =>
  match x, y with
  | .ok u, .ok v =>
    if h : u = v then .isTrue (by rw [h]) else .isFalse (fun hh => h (Except.ok.inj hh))
  | .error u, .error v =>
    if h : u = v then .isTrue (by rw [h]) else .isFalse (fun hh => h (Except.error.inj hh))
  | .ok _, .error _ => .isFalse (fun hh => Except.noConfusion hh)
  | .error _, .ok _ => .isFalse (fun hh => Except.noConfusion hh)

/-- The buffer's last character is in the newline class. -/
def endsWithNewlineClass (s : Txt) : Bool :=
  match s.getLast? with
  | none => false
  | some c => isNewlineChar c

/-- Written from the spec's words for `position_to_byte` (§4.1), with the
amendment claim C2 forces: the simulated-final-newline case also fires on the
empty buffer.  "If `pos` satisfies the simulated-final-newline case, return
`buffer.byte_length`.  Otherwise require `pos.line < buffer.line_count` (else
`OutOfBounds`); let `line_start = buffer.byte_offset_of_line(pos.line)`; let
the line's character count `len`; require `pos.column <= len` (else
`OutOfBounds`); return `line_start + sum of byte_length(c) for c in first
pos.column chars of the line`." -/
def spec_position_to_byte (s : Txt) (pos : Pos) : Except EditErr Nat :=
  if pos.line == lineLen s && pos.column == 0 && (s.isEmpty || endsWithNewlineClass s) then
    .ok (byteLen s)
  else if lineLen s ≤ pos.line then .error .OutOfBounds
  else if (lineAt s pos.line).length < pos.column then .error .OutOfBounds
  else .ok (byteOfLine s pos.line + (((lineAt s pos.line).take pos.column).map Char.utf8Size).sum)

/-- Total UTF-8 byte size of a character run. -/
def sumUtf8 (l : List Char) : Nat := (l.map Char.utf8Size).sum

/-- Written from the spec's words for the `Word` boundary scan (§4.2):
"Phase 1: if the first character is a newline, consume the maximal run of
consecutive newlines; else consume the maximal run of consecutive horizontal-
whitespace characters (this phase may consume zero characters if the first
character is neither).  Phase 2: classify the next character into one of
Alphanumeric/Whitespace/Newline/Other and consume the maximal run of that
single class, stopping at the first character whose class differs." -/
def spec_word_count (l : List Char) : Nat :=
  let run := if (l.head?.map isNewlineChar).getD false
    then l.takeWhile isNewlineChar
    else l.takeWhile isInlineWhitespaceChar
  let rest := l.drop run.length
  sumUtf8 run +
    (match rest.head? with
     | none => 0
     | some c => sumUtf8 (rest.takeWhile (fun d => classify d == classify c)))

/-- Written from the spec's words for the `Line` boundary scan (§4.2): "if the
immediately adjacent character is a newline, consume exactly that one newline;
otherwise consume all characters up to (but not including) the next newline in
that direction". -/
def spec_line_count (l : List Char) : Nat :=
  match l.head? with
  | none => 0
  | some c =>
    if isNewlineChar c then c.utf8Size
    else sumUtf8 (l.takeWhile (fun d => !isNewlineChar d))

/-- Written from the spec's words for the post-insert column as amended by
claim C5: the character count of the inserted text's final line in the sense
of Rust `str::lines` — the text after the last `'\n'`, computed after first
removing one trailing `'\n'` together with a `'\r'` immediately before it. -/
def spec_insert_column (t : Txt) : Nat :=
  let u := if t.getLast? = some '\n' then stripCR t.dropLast else t
  (tailAfterNl u).length

/-! ### Byte-length and byte-slicing lemmas -/

theorem byteLen_append (x y : Txt) : byteLen (x ++ y) = byteLen x + byteLen y := by
  induction x with
  | nil => simp [byteLen]
  | cons c r ih => simp [byteLen, ih, Nat.add_assoc]

theorem byteTake_zero (s : Txt) : byteTake 0 s = [] := by
  cases s with
  | nil => rfl
  | cons c r =>
    simp only [byteTake]
    rw [if_neg (by have := c.utf8Size_pos; omega)]

theorem byteDrop_zero (s : Txt) : byteDrop 0 s = s := by
  cases s with
  | nil => rfl
  | cons c r =>
    simp only [byteDrop]
    rw [if_neg (by have := c.utf8Size_pos; omega)]

theorem byteTake_append (x y : Txt) (n : Nat) :
    byteTake (byteLen x + n) (x ++ y) = x ++ byteTake n y := by
  induction x with
  | nil => simp [byteLen]
  | cons c r ih =>
    show byteTake (c.utf8Size + byteLen r + n) (c :: (r ++ y)) = c :: (r ++ byteTake n y)
    simp only [byteTake]
    rw [if_pos (by omega)]
    rw [show c.utf8Size + byteLen r + n - c.utf8Size = byteLen r + n by omega]
    exact congrArg (c :: ·) ih

theorem byteDrop_append (x y : Txt) (n : Nat) :
    byteDrop (byteLen x + n) (x ++ y) = byteDrop n y := by
  induction x with
  | nil => simp [byteLen]
  | cons c r ih =>
    show byteDrop (c.utf8Size + byteLen r + n) (c :: (r ++ y)) = byteDrop n y
    simp only [byteDrop]
    rw [if_pos (by omega)]
    rw [show c.utf8Size + byteLen r + n - c.utf8Size = byteLen r + n by omega]
    exact ih

theorem byteTake_len (x y : Txt) : byteTake (byteLen x) (x ++ y) = x := by
  have := byteTake_append x y 0
  simpa [byteTake_zero] using this

theorem byteDrop_len (x y : Txt) : byteDrop (byteLen x) (x ++ y) = y := by
  have := byteDrop_append x y 0
  simpa [byteDrop_zero] using this

theorem byteTake_byteDrop_eq (n : Nat) (s : Txt) : byteTake n s ++ byteDrop n s = s := by
  induction s generalizing n with
  | nil => rfl
  | cons c r ih =>
    simp only [byteTake, byteDrop]
    by_cases h : c.utf8Size ≤ n
    · simp [h, ih]
    · simp [h]

theorem byteLen_byteTake_le (n : Nat) (s : Txt) : byteLen (byteTake n s) ≤ n := by
  induction s generalizing n with
  | nil => simp [byteTake, byteLen]
  | cons c r ih =>
    simp only [byteTake]
    by_cases h : c.utf8Size ≤ n
    · simp only [h, if_pos]
      have := ih (n - c.utf8Size)
      simp only [byteLen]
      omega
    · simp [h, byteLen]

theorem take_length_byteTake (n : Nat) (l : Txt) :
    l.take (byteTake n l).length = byteTake n l := by
  induction l generalizing n with
  | nil => simp [byteTake]
  | cons c r ih =>
    simp only [byteTake]
    by_cases h : c.utf8Size ≤ n
    · simp [h, List.take_succ_cons, ih]
    · simp [h]

theorem boundary_le_byteLen_byteTake (a x : Nat) (s : Txt)
    (h : byteLen (byteTake a s) = a) (hax : a ≤ x) :
    a ≤ byteLen (byteTake x s) := by
  induction s generalizing a x with
  | nil => simp [byteTake, byteLen] at h ⊢; omega
  | cons c r ih =>
    simp only [byteTake] at h ⊢
    by_cases ha : c.utf8Size ≤ a
    · rw [if_pos ha] at h
      rw [if_pos (Nat.le_trans ha hax)]
      simp only [byteLen] at h ⊢
      have := ih (a - c.utf8Size) (x - c.utf8Size) (by omega) (by omega)
      omega
    · rw [if_neg ha] at h
      simp only [byteLen] at h
      omega

/-! ### Raw-line decomposition lemmas -/

theorem rawLinesAux_no_nl (acc a : Txt) (h : '\n' ∉ a) :
    rawLinesAux acc a = if acc.reverse ++ a = [] then [] else [acc.reverse ++ a] := by
  induction a generalizing acc with
  | nil =>
    simp only [rawLinesAux, List.append_nil, List.isEmpty_iff]
    by_cases hacc : acc = []
    · simp [hacc]
    · simp [hacc, List.reverse_eq_nil_iff]
  | cons c a ih =>
    have hc : ¬(c = '\n') := fun hh => h (hh ▸ List.mem_cons_self c a)
    simp only [rawLinesAux, if_neg hc]
    rw [ih _ (fun hm => h (List.mem_cons_of_mem c hm))]
    simp

theorem rawLinesAux_nl (acc a r : Txt) (h : '\n' ∉ a) :
    rawLinesAux acc (a ++ '\n' :: r) = (acc.reverse ++ (a ++ ['\n'])) :: rawLines r := by
  induction a generalizing acc with
  | nil => simp [rawLinesAux, rawLines]
  | cons c a ih =>
    have hc : ¬(c = '\n') := fun hh => h (hh ▸ List.mem_cons_self c a)
    have h' : '\n' ∉ a := fun hm => h (List.mem_cons_of_mem c hm)
    have step : rawLinesAux acc (c :: (a ++ '\n' :: r)) = rawLinesAux (c :: acc) (a ++ '\n' :: r) := by
      simp [rawLinesAux, hc]
    rw [List.cons_append, step, ih _ h']
    simp

theorem rawLines_no_nl (a : Txt) (h : '\n' ∉ a) :
    rawLines a = if a = [] then [] else [a] := by
  simpa using rawLinesAux_no_nl [] a h

theorem rawLines_nl (a r : Txt) (h : '\n' ∉ a) :
    rawLines (a ++ '\n' :: r) = (a ++ ['\n']) :: rawLines r := by
  simpa using rawLinesAux_nl [] a r h

theorem exists_line_split (s : Txt) :
    ('\n' ∉ s) ∨ ∃ a r, '\n' ∉ a ∧ s = a ++ '\n' :: r := by
  induction s with
  | nil => left; simp
  | cons c t ih =>
    by_cases hc : c = '\n'
    · right; exact ⟨[], t, by simp, by simp [hc]⟩
    · rcases ih with h | ⟨a, r, ha, rfl⟩
      · left
        intro hm
        rcases List.mem_cons.mp hm with h1 | h1
        · exact hc h1.symm
        · exact h h1
      · right
        refine ⟨c :: a, r, ?_, rfl⟩
        intro hm
        rcases List.mem_cons.mp hm with h1 | h1
        · exact hc h1.symm
        · exact ha h1

theorem line_induction (P : Txt → Prop) (h1 : ∀ a, '\n' ∉ a → P a)
    (h2 : ∀ a r, '\n' ∉ a → P r → P (a ++ '\n' :: r)) (s : Txt) : P s := by
  suffices h : ∀ n (t : Txt), t.length ≤ n → P t from h s.length s (Nat.le_refl _)
  intro n
  induction n with
  | zero =>
    intro t ht
    have hnil : t = [] := List.eq_nil_of_length_eq_zero (Nat.le_zero.mp ht)
    exact hnil ▸ h1 [] (by simp)
  | succ n ih =>
    intro t ht
    rcases exists_line_split t with h | ⟨a, r, ha, rfl⟩
    · exact h1 t h
    · exact h2 a r ha (ih r (by simp [List.length_append] at ht; omega))

/-! ### Peel lemmas for the derived line functions -/

theorem utf8Size_nl : ('\n' : Char).utf8Size = 1 := by decide

theorem rawLines_eq_nil_iff (s : Txt) : rawLines s = [] ↔ s = [] := by
  constructor
  · intro h
    rcases exists_line_split s with hs | ⟨a, r, ha, rfl⟩
    · rw [rawLines_no_nl s hs] at h
      by_cases h0 : s = []
      · exact h0
      · simp [h0] at h
    · rw [rawLines_nl a r ha] at h
      cases h
  · intro h
    subst h
    rfl

theorem lineLen_nil : lineLen ([] : Txt) = 0 := rfl

theorem lineLen_no_nl (a : Txt) (h : '\n' ∉ a) :
    lineLen a = if a = [] then 0 else 1 := by
  unfold lineLen
  rw [rawLines_no_nl a h]
  by_cases h0 : a = [] <;> simp [h0]

theorem lineLen_nl (a r : Txt) (h : '\n' ∉ a) :
    lineLen (a ++ '\n' :: r) = lineLen r + 1 := by
  unfold lineLen
  rw [rawLines_nl a r h]
  simp

theorem lineLen_pos (s : Txt) (h : s ≠ []) : 1 ≤ lineLen s := by
  rcases exists_line_split s with hs | ⟨a, r, ha, rfl⟩
  · rw [lineLen_no_nl s hs]
    simp [h]
  · rw [lineLen_nl a r ha]
    omega

theorem byteOfLine_zero (s : Txt) : byteOfLine s 0 = 0 := by
  simp [byteOfLine, sumBytes]

theorem byteLen_snoc_nl (a : Txt) : byteLen (a ++ ['\n']) = byteLen a + 1 := by
  rw [byteLen_append]
  simp [byteLen, utf8Size_nl]

theorem byteLen_cons_nl (t : Txt) : byteLen ('\n' :: t) = 1 + byteLen t := by
  simp [byteLen, utf8Size_nl]

theorem byteOfLine_nl_succ (a r : Txt) (h : '\n' ∉ a) (i : Nat) :
    byteOfLine (a ++ '\n' :: r) (i + 1) = (byteLen a + 1) + byteOfLine r i := by
  unfold byteOfLine
  rw [rawLines_nl a r h]
  simp [List.take_succ_cons, sumBytes, byteLen_snoc_nl]

theorem mem_of_getLast?_eq : ∀ {l : Txt} {c : Char}, l.getLast? = some c → c ∈ l := by
  intro l
  induction l with
  | nil => intro c h; cases h
  | cons a t ih =>
    intro c h
    cases t with
    | nil =>
      simp only [List.getLast?_singleton, Option.some.injEq] at h
      simp [h]
    | cons b u =>
      rw [List.getLast?_cons_cons] at h
      exact List.mem_cons_of_mem _ (ih h)

theorem stripNl_no_nl (l : Txt) (h : '\n' ∉ l) : stripNl l = l := by
  unfold stripNl
  split
  · next heq => exact absurd (mem_of_getLast?_eq heq) h
  · rfl

theorem getLast?_snoc (x : Txt) (c : Char) : (x ++ [c]).getLast? = some c :=
  List.getLast?_concat x

theorem dropLast_snoc (x : Txt) (c : Char) : (x ++ [c]).dropLast = x :=
  List.dropLast_concat

theorem stripNl_snoc_nl (a : Txt) : stripNl (a ++ ['\n']) = a := by
  unfold stripNl
  rw [if_pos (getLast?_snoc a '\n')]
  exact dropLast_snoc a '\n'

theorem lineAt_no_nl_zero (a : Txt) (h : '\n' ∉ a) : lineAt a 0 = a := by
  unfold lineAt
  rw [rawLines_no_nl a h]
  by_cases h0 : a = []
  · simp [h0, stripNl]
  · simp [h0, stripNl_no_nl a h]

theorem lineAt_nl_zero (a r : Txt) (h : '\n' ∉ a) : lineAt (a ++ '\n' :: r) 0 = a := by
  unfold lineAt
  rw [rawLines_nl a r h]
  simpa using stripNl_snoc_nl a

theorem lineAt_nl_succ (a r : Txt) (h : '\n' ∉ a) (i : Nat) :
    lineAt (a ++ '\n' :: r) (i + 1) = lineAt r i := by
  unfold lineAt
  rw [rawLines_nl a r h]
  simp

theorem lineOfByte_nl_lt (a r : Txt) (h : '\n' ∉ a) (b : Nat) (hb : b < byteLen a + 1) :
    lineOfByte (a ++ '\n' :: r) b = 0 := by
  unfold lineOfByte
  rw [rawLines_nl a r h]
  simp [lineOfByteAux, byteLen_snoc_nl, hb]

theorem lineOfByte_nl_ge (a r : Txt) (h : '\n' ∉ a) (b : Nat) (hb : byteLen a + 1 ≤ b) :
    lineOfByte (a ++ '\n' :: r) b = 1 + lineOfByte r (b - (byteLen a + 1)) := by
  unfold lineOfByte
  rw [rawLines_nl a r h]
  simp only [lineOfByteAux, byteLen_snoc_nl]
  rw [if_neg (by omega)]

theorem lineOfByte_no_nl (a : Txt) (h : '\n' ∉ a) (b : Nat) (hb : b < byteLen a) :
    lineOfByte a b = 0 := by
  unfold lineOfByte
  rw [rawLines_no_nl a h]
  have h0 : a ≠ [] := by
    intro hh
    subst hh
    simp [byteLen] at hb
  simp [h0, lineOfByteAux, hb]

theorem getLast?_ne_none (l : Txt) (h : l ≠ []) : ∃ c, l.getLast? = some c := by
  cases hc : l.getLast? with
  | none => exact absurd (List.getLast?_eq_none_iff.mp hc) h
  | some c => exact ⟨c, rfl⟩

theorem isNewlineChar_nl : isNewlineChar '\n' = true := by decide

theorem lastEndsNewline_nil : lastEndsNewline ([] : Txt) = true := rfl

theorem lastEndsNewline_eq_lastCharNewline (s : Txt) :
    lastEndsNewline s = lastCharNewline s := by
  refine line_induction (fun s => lastEndsNewline s = lastCharNewline s) ?_ ?_ s
  · intro a ha
    by_cases h0 : a = []
    · subst h0; rfl
    · unfold lastEndsNewline lastCharNewline
      rw [rawLines_no_nl a ha, if_neg h0]
      simp only [List.getLast?_singleton]
  · intro a r ha ih
    by_cases hr : r = []
    · subst hr
      unfold lastEndsNewline lastCharNewline
      rw [rawLines_nl a [] ha]
      have h1 : rawLines ([] : Txt) = [] := rfl
      rw [h1]
      simp only [List.getLast?_singleton, getLast?_snoc]
    · unfold lastEndsNewline lastCharNewline at ih ⊢
      rw [rawLines_nl a r ha]
      have h1 : rawLines r ≠ [] := fun hh => hr ((rawLines_eq_nil_iff r).mp hh)
      rcases List.exists_cons_of_ne_nil h1 with ⟨l0, L, hL⟩
      rw [hL, List.getLast?_cons_cons, ← hL]
      rcases List.exists_cons_of_ne_nil hr with ⟨c0, r0, hr0⟩
      rw [hr0, List.getLast?_append_cons, List.getLast?_cons_cons, ← hr0]
      exact ih

theorem lastEndsNewline_nl (a r : Txt) :
    lastEndsNewline (a ++ '\n' :: r) = lastEndsNewline r := by
  rw [lastEndsNewline_eq_lastCharNewline, lastEndsNewline_eq_lastCharNewline]
  unfold lastCharNewline
  by_cases hr : r = []
  · subst hr
    have hlast : (a ++ '\n' :: ([] : Txt)).getLast? = some '\n' :=
      getLast?_snoc a '\n'
    rw [hlast]
    simp [isNewlineChar_nl]
  · rcases List.exists_cons_of_ne_nil hr with ⟨c0, r0, hr0⟩
    rw [hr0, List.getLast?_append_cons, List.getLast?_cons_cons]

/-! ### The canonical position of a byte-prefix -/

theorem takeWhile_all {l : Txt} {f : Char → Bool} (h : ∀ c ∈ l, f c = true) :
    l.takeWhile f = l := by
  induction l with
  | nil => rfl
  | cons c r ih =>
    rw [List.takeWhile_cons]
    simp [h c (List.mem_cons_self c r), ih (fun d hd => h d (List.mem_cons_of_mem c hd))]

theorem takeWhile_append_all {u v : Txt} {f : Char → Bool} (h : ∀ c ∈ u, f c = true) :
    (u ++ v).takeWhile f = u ++ v.takeWhile f := by
  induction u with
  | nil => rfl
  | cons c r ih =>
    rw [List.cons_append, List.takeWhile_cons]
    simp [h c (List.mem_cons_self c r), ih (fun d hd => h d (List.mem_cons_of_mem c hd))]

theorem takeWhile_append_stop {u v : Txt} {f : Char → Bool}
    (h : ∃ c ∈ u, f c = false) : (u ++ v).takeWhile f = u.takeWhile f := by
  induction u with
  | nil =>
    rcases h with ⟨c, hc, _⟩
    cases hc
  | cons c r ih =>
    simp only [List.cons_append, List.takeWhile_cons]
    cases hfc : f c with
    | false => rfl
    | true =>
      rcases h with ⟨d, hd, hfd⟩
      rcases List.mem_cons.mp hd with h1 | h1
      · rw [h1] at hfd
        rw [hfd] at hfc
        cases hfc
      · rw [ih ⟨d, h1, hfd⟩]

theorem countNl_no_nl (p : Txt) (h : '\n' ∉ p) : countNl p = 0 :=
  List.count_eq_zero.mpr h

theorem countNl_nl (a r : Txt) (h : '\n' ∉ a) :
    countNl (a ++ '\n' :: r) = countNl r + 1 := by
  unfold countNl
  rw [List.count_append, List.count_cons]
  rw [List.count_eq_zero.mpr h]
  simp [Nat.add_comm]

theorem tailAfterNl_no_nl (p : Txt) (h : '\n' ∉ p) : tailAfterNl p = p := by
  unfold tailAfterNl
  rw [takeWhile_all, List.reverse_reverse]
  intro c hc
  have : c ∈ p := List.mem_reverse.mp hc
  simp only [decide_eq_true_eq]
  intro hcc
  exact h (hcc ▸ this)

theorem takeWhile_ne_nl_append (u v : Txt) :
    (u ++ '\n' :: v).takeWhile (fun c => (c ≠ '\n' : Bool)) =
      u.takeWhile (fun c => (c ≠ '\n' : Bool)) := by
  induction u with
  | nil => simp [List.takeWhile_cons]
  | cons c r ih =>
    rw [List.cons_append, List.takeWhile_cons, List.takeWhile_cons]
    by_cases hc : c = '\n'
    · subst hc
      simp
    · rw [ih]

theorem tailAfterNl_append_nl (x r : Txt) : tailAfterNl (x ++ '\n' :: r) = tailAfterNl r := by
  unfold tailAfterNl
  have hrev : (x ++ '\n' :: r).reverse = r.reverse ++ '\n' :: x.reverse := by simp
  rw [hrev, takeWhile_ne_nl_append]

theorem canonPos_no_nl (p : Txt) (h : '\n' ∉ p) : canonPos p = ⟨0, p.length⟩ := by
  unfold canonPos
  rw [countNl_no_nl p h, tailAfterNl_no_nl p h]

theorem canonPos_nl (a r : Txt) (h : '\n' ∉ a) :
    canonPos (a ++ '\n' :: r) = ⟨countNl r + 1, (tailAfterNl r).length⟩ := by
  unfold canonPos
  rw [countNl_nl a r h, tailAfterNl_append_nl]

theorem getLast?_append_cons_right (a : Txt) (c : Char) (t : Txt) (ht : t ≠ []) :
    (a ++ c :: t).getLast? = t.getLast? := by
  rcases List.exists_cons_of_ne_nil ht with ⟨d, u, rfl⟩
  rw [List.getLast?_append_cons, List.getLast?_cons_cons]

theorem lastCharNewline_nl (a t : Txt) (ht : t ≠ []) :
    lastCharNewline (a ++ '\n' :: t) = lastCharNewline t := by
  unfold lastCharNewline
  rw [getLast?_append_cons_right a '\n' t ht]

theorem getLastD_cons_of_ne_nil {α : Type} (x d : α) (L : List α) (h : L ≠ []) :
    (x :: L).getLastD d = L.getLastD d := by
  rcases List.exists_cons_of_ne_nil h with ⟨y, M, rfl⟩
  rfl

/-! ### Shift lemmas: peeling the first line off the coordinate mapper -/

theorem get_byte_mk (s : Txt) (l c : Nat) :
    get_byte s ⟨l, c⟩ =
      if (l == lineLen s && c == 0 && lastEndsNewline s) then .ok (byteLen s)
      else if lineLen s ≤ l then .error .OutOfBounds
      else if (lineAt s l).length < c then .error .OutOfBounds
      else .ok (byteOfLine s l + byteLen ((lineAt s l).take c)) := rfl

theorem pos_from_byte_eq (s : Txt) (b : Nat) :
    pos_from_byte s b =
      if byteLen s < b then .error .OutOfBounds
      else if b == byteLen s then
        if lastCharNewline s then .ok ⟨lineLen s, 0⟩
        else .ok ⟨lineLen s - 1, ((cropLines s).getLastD []).length⟩
      else .ok ⟨lineOfByte s b,
        (byteTake (b - byteOfLine s (lineOfByte s b)) (lineAt s (lineOfByte s b))).length⟩ := rfl

theorem byteLen_append_cons_nl (a t : Txt) :
    byteLen (a ++ '\n' :: t) = (byteLen a + 1) + byteLen t := by
  rw [byteLen_append, byteLen_cons_nl]
  omega

theorem get_byte_nl_shift (a t : Txt) (h : '\n' ∉ a) (i cc : Nat) :
    get_byte (a ++ '\n' :: t) ⟨i + 1, cc⟩ =
      (get_byte t ⟨i, cc⟩).map (fun b => (byteLen a + 1) + b) := by
  have h1 : lineLen (a ++ '\n' :: t) = lineLen t + 1 := lineLen_nl a t h
  have h2 : lastEndsNewline (a ++ '\n' :: t) = lastEndsNewline t := lastEndsNewline_nl a t
  have h3 : byteLen (a ++ '\n' :: t) = (byteLen a + 1) + byteLen t := byteLen_append_cons_nl a t
  have h4 : lineAt (a ++ '\n' :: t) (i + 1) = lineAt t i := lineAt_nl_succ a t h i
  have h5 : byteOfLine (a ++ '\n' :: t) (i + 1) = (byteLen a + 1) + byteOfLine t i :=
    byteOfLine_nl_succ a t h i
  have hbeq : ((i + 1 : Nat) == lineLen t + 1) = ((i : Nat) == lineLen t) := by
    by_cases hh : i = lineLen t
    · simp [hh]
    · have h6 : i + 1 ≠ lineLen t + 1 := by omega
      simp [hh, h6]
  rw [get_byte_mk, get_byte_mk, h1, h2, h3, h4, h5, hbeq]
  by_cases hsim : (((i : Nat) == lineLen t) && ((cc : Nat) == 0) && lastEndsNewline t) = true
  · rw [if_pos hsim, if_pos hsim]
    rfl
  · rw [if_neg hsim, if_neg hsim]
    by_cases hlen : lineLen t ≤ i
    · rw [if_pos (by omega : lineLen t + 1 ≤ i + 1), if_pos hlen]
      rfl
    · rw [if_neg (by omega : ¬(lineLen t + 1 ≤ i + 1)), if_neg hlen]
      by_cases hcol : (lineAt t i).length < cc
      · rw [if_pos hcol, if_pos hcol]
        rfl
      · rw [if_neg hcol, if_neg hcol]
        simp [Except.map, Nat.add_assoc]

theorem cropLines_getLastD_nl (a t : Txt) (h : '\n' ∉ a) (ht : t ≠ []) :
    (cropLines (a ++ '\n' :: t)).getLastD [] = (cropLines t).getLastD [] := by
  unfold cropLines
  rw [rawLines_nl a t h, List.map_cons]
  apply getLastD_cons_of_ne_nil
  simp [rawLines_eq_nil_iff, ht]

theorem pos_from_byte_nl_shift (a t : Txt) (h : '\n' ∉ a) (b : Nat) :
    pos_from_byte (a ++ '\n' :: t) ((byteLen a + 1) + b) =
      (pos_from_byte t b).map (fun p => ⟨p.line + 1, p.column⟩) := by
  have h3 : byteLen (a ++ '\n' :: t) = (byteLen a + 1) + byteLen t := byteLen_append_cons_nl a t
  have h1 : lineLen (a ++ '\n' :: t) = lineLen t + 1 := lineLen_nl a t h
  rw [pos_from_byte_eq, pos_from_byte_eq, h3]
  by_cases hov : byteLen t < b
  · rw [if_pos (by omega : (byteLen a + 1) + byteLen t < (byteLen a + 1) + b), if_pos hov]
    rfl
  · rw [if_neg (by omega : ¬((byteLen a + 1) + byteLen t < (byteLen a + 1) + b)), if_neg hov]
    by_cases hbe : b = byteLen t
    · subst hbe
      rw [if_pos (by simp :
        (((byteLen a + 1) + byteLen t : Nat) == (byteLen a + 1) + byteLen t) = true)]
      rw [if_pos (by simp : ((byteLen t : Nat) == byteLen t) = true)]
      by_cases ht : t = []
      · subst ht
        have hlast : lastCharNewline (a ++ '\n' :: ([] : Txt)) = true := by
          unfold lastCharNewline
          rw [show (a ++ '\n' :: ([] : Txt)).getLast? = some '\n' from getLast?_snoc a '\n']
          exact isNewlineChar_nl
        rw [if_pos hlast, if_pos (by decide : lastCharNewline ([] : Txt) = true), h1]
        rfl
      · rw [lastCharNewline_nl a t ht]
        by_cases hnl : lastCharNewline t = true
        · rw [if_pos hnl, if_pos hnl, h1]
          rfl
        · rw [if_neg hnl, if_neg hnl, h1]
          rw [cropLines_getLastD_nl a t h ht]
          have hl1 : 1 ≤ lineLen t := lineLen_pos t ht
          have hline : lineLen t + 1 - 1 = lineLen t - 1 + 1 := by omega
          rw [hline]
          rfl
    · have hlt : b < byteLen t := by omega
      rw [if_neg (by simp; omega :
        ¬((((byteLen a + 1) + b : Nat) == (byteLen a + 1) + byteLen t) = true))]
      rw [if_neg (by simp; omega : ¬(((b : Nat) == byteLen t) = true))]
      have hsub : (byteLen a + 1) + b - (byteLen a + 1) = b := by omega
      have hlob : lineOfByte (a ++ '\n' :: t) ((byteLen a + 1) + b) = 1 + lineOfByte t b := by
        rw [lineOfByte_nl_ge a t h _ (by omega), hsub]
      rw [hlob]
      have hcomm : 1 + lineOfByte t b = lineOfByte t b + 1 := by omega
      rw [hcomm, byteOfLine_nl_succ a t h, lineAt_nl_succ a t h]
      have hoff : (byteLen a + 1) + b - ((byteLen a + 1) + byteOfLine t (lineOfByte t b)) =
          b - byteOfLine t (lineOfByte t b) := by omega
      rw [hoff]
      rfl

/-! ### The main coordinate-mapper lemmas -/

theorem beq_succ (i n : Nat) : ((i + 1 : Nat) == n + 1) = ((i : Nat) == n) := by
  by_cases hh : i = n
  · simp [hh]
  · have h6 : i + 1 ≠ n + 1 := by omega
    simp [hh, h6]

theorem is_sim_mk (s : Txt) (l c : Nat) :
    is_simulated_final_newline s ⟨l, c⟩ =
      ((l == lineLen s) && (c == 0) && lastEndsNewline s) := rfl

theorem is_sim_nl_shift (a t : Txt) (h : '\n' ∉ a) (i c : Nat) :
    is_simulated_final_newline (a ++ '\n' :: t) ⟨i + 1, c⟩ =
      is_simulated_final_newline t ⟨i, c⟩ := by
  rw [is_sim_mk, is_sim_mk, lineLen_nl a t h, lastEndsNewline_nl a t, beq_succ]

/-- Addressing the position right after a byte-prefix: the canonical
position of `pre` is accepted by `get_byte` on any extension of `pre` and is
mapped exactly to `pre`'s byte length. -/
theorem get_byte_canon (pre suf : Txt) :
    get_byte (pre ++ suf) (canonPos pre) = .ok (byteLen pre) := by
  induction pre using line_induction with
  | h1 a ha =>
    rw [canonPos_no_nl a ha]
    rcases exists_line_split suf with hsuf | ⟨b, r, hb, rfl⟩
    · have hno : '\n' ∉ a ++ suf := by
        intro hm
        rcases List.mem_append.mp hm with h1 | h1
        · exact ha h1
        · exact hsuf h1
      by_cases h0 : a ++ suf = []
      · have ha0 : a = [] := (List.append_eq_nil.mp h0).1
        have hs0 : suf = [] := (List.append_eq_nil.mp h0).2
        subst ha0
        subst hs0
        rfl
      · rw [get_byte_mk]
        have hlen : lineLen (a ++ suf) = 1 := by
          rw [lineLen_no_nl _ hno, if_neg h0]
        rw [hlen]
        rw [if_neg (by simp)]
        rw [if_neg (by omega : ¬(1 ≤ 0))]
        rw [lineAt_no_nl_zero _ hno]
        rw [if_neg (by rw [List.length_append]; omega)]
        rw [byteOfLine_zero, List.take_left, Nat.zero_add]
    · have hassoc : a ++ (b ++ '\n' :: r) = (a ++ b) ++ '\n' :: r := by
        simp [List.append_assoc]
      rw [hassoc, get_byte_mk]
      have hab : '\n' ∉ a ++ b := by
        intro hm
        rcases List.mem_append.mp hm with h1 | h1
        · exact ha h1
        · exact hb h1
      rw [lineLen_nl _ r hab]
      rw [if_neg (by simp)]
      rw [if_neg (by omega : ¬(lineLen r + 1 ≤ 0))]
      rw [lineAt_nl_zero _ r hab]
      rw [if_neg (by rw [List.length_append]; omega)]
      rw [byteOfLine_zero, List.take_left, Nat.zero_add]
  | h2 a r ha ih =>
    rw [canonPos_nl a r ha]
    have hassoc : (a ++ '\n' :: r) ++ suf = a ++ '\n' :: (r ++ suf) := by simp
    rw [hassoc, get_byte_nl_shift a (r ++ suf) ha (countNl r) _]
    rw [show (⟨countNl r, (tailAfterNl r).length⟩ : Pos) = canonPos r from rfl, ih]
    rw [byteLen_append_cons_nl]
    rfl

/-- On a buffer that is empty or ends in a literal `'\n'`, the canonical
position of the whole buffer is the simulated-final-newline slot. -/
theorem canonPos_of_ends_nl (s : Txt) (h : s = [] ∨ s.getLast? = some '\n') :
    canonPos s = ⟨lineLen s, 0⟩ := by
  induction s using line_induction with
  | h1 a ha =>
    rcases h with h0 | h0
    · subst h0
      rfl
    · exact absurd (mem_of_getLast?_eq h0) ha
  | h2 a r ha ih =>
    rw [canonPos_nl a r ha, lineLen_nl a r ha]
    by_cases hr : r = []
    · subst hr
      rfl
    · have hlast : (a ++ '\n' :: r).getLast? = r.getLast? :=
        getLast?_append_cons_right a '\n' r hr
      rcases h with h0 | h0
      · simp at h0
      · rw [hlast] at h0
        have := ih (Or.inr h0)
        rw [show canonPos r = ⟨countNl r, (tailAfterNl r).length⟩ from rfl] at this
        have h1 : countNl r = lineLen r := congrArg Pos.line this
        have h2 : (tailAfterNl r).length = 0 := congrArg Pos.column this
        rw [h1, h2]

/-- Inversion for a successful `get_byte`: the byte offset splits the buffer
at a character boundary, and away from the simulated slot the position is the
canonical position of the byte-prefix. -/
theorem get_byte_split (s : Txt) (pos : Pos) (b : Nat) (hok : get_byte s pos = .ok b) :
    ∃ pre suf, s = pre ++ suf ∧ byteLen pre = b ∧
      (is_simulated_final_newline s pos = false → pos = canonPos pre) ∧
      (is_simulated_final_newline s pos = true → suf = [] ∧ pos = ⟨lineLen s, 0⟩) := by
  induction s using line_induction generalizing pos b with
  | h1 a ha =>
    obtain ⟨pl, pc⟩ := pos
    rw [get_byte_mk] at hok
    by_cases hsim : (((pl : Nat) == lineLen a) && ((pc : Nat) == 0) && lastEndsNewline a) = true
    · rw [if_pos hsim] at hok
      simp only [Except.ok.injEq] at hok
      have hparts : pl = lineLen a ∧ pc = 0 := by
        simp only [Bool.and_eq_true, beq_iff_eq] at hsim
        exact ⟨hsim.1.1, hsim.1.2⟩
      refine ⟨a, [], by simp, hok, ?_, ?_⟩
      · intro hfalse
        rw [is_sim_mk] at hfalse
        rw [hfalse] at hsim
        cases hsim
      · intro _
        exact ⟨rfl, by rw [hparts.1, hparts.2]⟩
    · rw [if_neg hsim] at hok
      by_cases hlen : lineLen a ≤ pl
      · rw [if_pos hlen] at hok
        cases hok
      · rw [if_neg hlen] at hok
        by_cases hcol : (lineAt a pl).length < pc
        · rw [if_pos hcol] at hok
          cases hok
        · rw [if_neg hcol] at hok
          simp only [Except.ok.injEq] at hok
          by_cases h0 : a = []
          · subst h0
            rw [lineLen_nil] at hlen
            exact absurd (Nat.zero_le pl) hlen
          · have hl1 : lineLen a = 1 := by rw [lineLen_no_nl a ha, if_neg h0]
            have hpl : pl = 0 := by omega
            subst hpl
            rw [lineAt_no_nl_zero a ha] at hok hcol
            rw [byteOfLine_zero, Nat.zero_add] at hok
            refine ⟨a.take pc, a.drop pc, (List.take_append_drop pc a).symm, hok, ?_, ?_⟩
            · intro _
              rw [canonPos_no_nl _ (fun hm => ha (List.mem_of_mem_take hm))]
              have : (a.take pc).length = pc := by
                rw [List.length_take]
                omega
              rw [this]
            · intro hsimt
              rw [is_sim_mk] at hsimt
              exact absurd hsimt hsim
  | h2 a t ha ih =>
    obtain ⟨pl, pc⟩ := pos
    cases pl with
    | zero =>
      rw [get_byte_mk] at hok
      have hlen1 : lineLen (a ++ '\n' :: t) = lineLen t + 1 := lineLen_nl a t ha
      rw [hlen1] at hok
      rw [if_neg (by simp)] at hok
      rw [if_neg (by omega : ¬(lineLen t + 1 ≤ 0))] at hok
      rw [lineAt_nl_zero a t ha] at hok
      by_cases hcol : a.length < pc
      · rw [if_pos hcol] at hok
        cases hok
      · rw [if_neg hcol] at hok
        simp only [Except.ok.injEq] at hok
        rw [byteOfLine_zero, Nat.zero_add] at hok
        refine ⟨a.take pc, a.drop pc ++ '\n' :: t, ?_, hok, ?_, ?_⟩
        · rw [← List.append_assoc, List.take_append_drop]
        · intro _
          rw [canonPos_no_nl _ (fun hm => ha (List.mem_of_mem_take hm))]
          have : (a.take pc).length = pc := by
            rw [List.length_take]
            omega
          rw [this]
        · intro hsimt
          rw [is_sim_mk, hlen1] at hsimt
          simp at hsimt
    | succ i =>
      rw [get_byte_nl_shift a t ha i pc] at hok
      cases hgt : get_byte t ⟨i, pc⟩ with
      | error e =>
        rw [hgt] at hok
        simp [Except.map] at hok
      | ok b' =>
        rw [hgt] at hok
        simp only [Except.map, Except.ok.injEq] at hok
        obtain ⟨pre, suf, hts, hblen, hcanon, hsim⟩ := ih ⟨i, pc⟩ b' hgt
        refine ⟨(a ++ ['\n']) ++ pre, suf, ?_, ?_, ?_, ?_⟩
        · rw [hts]
          simp [List.append_assoc]
        · rw [byteLen_append, byteLen_snoc_nl, hblen, ← hok]
        · intro hsf
          rw [is_sim_nl_shift a t ha i pc] at hsf
          have hc := hcanon hsf
          have h7 : (a ++ ['\n']) ++ pre = a ++ '\n' :: pre := by simp
          rw [h7, canonPos_nl a pre ha]
          rw [show canonPos pre = ⟨countNl pre, (tailAfterNl pre).length⟩ from rfl] at hc
          have hil : i = countNl pre := congrArg Pos.line hc
          have hcl : pc = (tailAfterNl pre).length := congrArg Pos.column hc
          rw [hil, hcl]
        · intro hsf
          rw [is_sim_nl_shift a t ha i pc] at hsf
          obtain ⟨hsuf, hpos⟩ := hsim hsf
          refine ⟨hsuf, ?_⟩
          have hil : i = lineLen t := congrArg Pos.line hpos
          have hcl : pc = 0 := congrArg Pos.column hpos
          rw [hil, hcl, lineLen_nl a t ha]

theorem byteTake_append_le (x : Nat) (a y : Txt) (hx : x ≤ byteLen a) :
    byteTake x (a ++ y) = byteTake x a := by
  induction a generalizing x with
  | nil =>
    have h0 : x = 0 := by
      simp only [byteLen] at hx
      omega
    subst h0
    simp [byteTake_zero, byteTake]
  | cons c r ih =>
    simp only [List.cons_append, byteTake]
    simp only [byteLen] at hx
    by_cases h : c.utf8Size ≤ x
    · rw [if_pos h, if_pos h]
      exact congrArg (c :: ·) (ih _ (by omega))
    · rw [if_neg h, if_neg h]

theorem length_byteTake_le (x : Nat) (a : Txt) : (byteTake x a).length ≤ a.length := by
  have h := congrArg List.length (take_length_byteTake x a)
  rw [List.length_take] at h
  omega

/-- Round trip through the coordinate mapper, byte side: a position produced
by `pos_from_byte` is mapped back by `get_byte` to the character boundary at
or before the requested byte offset. -/
theorem pos_from_byte_get_byte (s : Txt) (x : Nat) (p : Pos)
    (hok : pos_from_byte s x = .ok p) :
    get_byte s p = .ok (byteLen (byteTake x s)) := by
  induction s using line_induction generalizing x p with
  | h1 a ha =>
    rw [pos_from_byte_eq] at hok
    by_cases hov : byteLen a < x
    · rw [if_pos hov] at hok
      cases hok
    · rw [if_neg hov] at hok
      have hbt : byteTake (byteLen a) a = a := by
        have h := byteTake_len a []
        simpa using h
      by_cases hbe : x = byteLen a
      · subst hbe
        rw [if_pos (by simp)] at hok
        by_cases hnl : lastCharNewline a = true
        · rw [if_pos hnl] at hok
          simp only [Except.ok.injEq] at hok
          rw [← hok, get_byte_mk]
          rw [if_pos (by
            rw [lastEndsNewline_eq_lastCharNewline, hnl]
            simp)]
          rw [hbt]
        · rw [if_neg hnl] at hok
          simp only [Except.ok.injEq] at hok
          have h0 : a ≠ [] := by
            intro hh
            subst hh
            exact hnl rfl
          have hl1 : lineLen a = 1 := by rw [lineLen_no_nl a ha, if_neg h0]
          have hcrop : (cropLines a).getLastD [] = a := by
            unfold cropLines
            rw [rawLines_no_nl a ha, if_neg h0]
            simp [stripNl_no_nl a ha]
          have hgoal : get_byte a ⟨0, a.length⟩ = .ok (byteLen a) := by
            rw [get_byte_mk, hl1]
            rw [if_neg (by simp)]
            rw [if_neg (by omega : ¬(1 ≤ 0))]
            rw [lineAt_no_nl_zero a ha]
            rw [if_neg (by omega : ¬(a.length < a.length))]
            rw [byteOfLine_zero, Nat.zero_add, List.take_length a]
          have hp : p = ⟨0, a.length⟩ := by
            rw [← hok, hcrop, hl1]
          rw [hp, hgoal, hbt]
      · have hlt : x < byteLen a := by omega
        rw [if_neg (by simp; omega : ¬((x == byteLen a) = true))] at hok
        simp only [Except.ok.injEq] at hok
        have h0 : a ≠ [] := by
          intro hh
          subst hh
          simp [byteLen] at hlt
        have hl1 : lineLen a = 1 := by rw [lineLen_no_nl a ha, if_neg h0]
        rw [lineOfByte_no_nl a ha x hlt, byteOfLine_zero, lineAt_no_nl_zero a ha,
          Nat.sub_zero] at hok
        rw [← hok, get_byte_mk, hl1]
        rw [if_neg (by simp)]
        rw [if_neg (by omega : ¬(1 ≤ 0))]
        rw [lineAt_no_nl_zero a ha]
        have hlen2 : (byteTake x a).length ≤ a.length := length_byteTake_le x a
        rw [if_neg (by omega : ¬(a.length < (byteTake x a).length))]
        rw [byteOfLine_zero, Nat.zero_add, take_length_byteTake]
  | h2 a t ha ih =>
    by_cases hx : x ≤ byteLen a
    · rw [pos_from_byte_eq] at hok
      have hblen : byteLen (a ++ '\n' :: t) = (byteLen a + 1) + byteLen t :=
        byteLen_append_cons_nl a t
      rw [hblen] at hok
      rw [if_neg (by omega)] at hok
      rw [if_neg (by simp; omega : ¬((x == (byteLen a + 1) + byteLen t) = true))] at hok
      simp only [Except.ok.injEq] at hok
      rw [lineOfByte_nl_lt a t ha x (by omega), byteOfLine_zero, lineAt_nl_zero a t ha,
        Nat.sub_zero] at hok
      rw [← hok, get_byte_mk, lineLen_nl a t ha]
      rw [if_neg (by simp)]
      rw [if_neg (by omega : ¬(lineLen t + 1 ≤ 0))]
      rw [lineAt_nl_zero a t ha]
      have hlen2 : (byteTake x a).length ≤ a.length := length_byteTake_le x a
      rw [if_neg (by omega : ¬(a.length < (byteTake x a).length))]
      rw [byteOfLine_zero, Nat.zero_add, take_length_byteTake]
      rw [byteTake_append_le x a ('\n' :: t) hx]
    · have hxe : x = (byteLen a + 1) + (x - (byteLen a + 1)) := by omega
      rw [hxe] at hok ⊢
      rw [pos_from_byte_nl_shift a t ha _] at hok
      cases hpt : pos_from_byte t (x - (byteLen a + 1)) with
      | error e =>
        rw [hpt] at hok
        simp [Except.map] at hok
      | ok p' =>
        rw [hpt] at hok
        simp only [Except.map, Except.ok.injEq] at hok
        have hg := ih _ p' hpt
        rw [← hok]
        obtain ⟨l', c'⟩ := p'
        rw [get_byte_nl_shift a t ha l' c', hg]
        have hs2 : (a ++ '\n' :: t : Txt) = (a ++ ['\n']) ++ t := by simp
        have hbt : byteTake ((byteLen a + 1) + (x - (byteLen a + 1))) ((a ++ ['\n']) ++ t)
            = (a ++ ['\n']) ++ byteTake (x - (byteLen a + 1)) t := by
          have h9 := byteTake_append (a ++ ['\n']) t (x - (byteLen a + 1))
          rw [byteLen_snoc_nl] at h9
          exact h9
        rw [hs2, hbt, byteLen_append, byteLen_snoc_nl]
        simp [Except.map]

/-- Round trip through the coordinate mapper, position side: the byte offset
right after a byte-prefix is mapped by `pos_from_byte` to the canonical
position of that prefix, provided the offset is interior. -/
theorem pos_from_byte_canon (pre suf : Txt) (hsuf : suf ≠ []) :
    pos_from_byte (pre ++ suf) (byteLen pre) = .ok (canonPos pre) := by
  have hspos : 1 ≤ byteLen suf := by
    rcases List.exists_cons_of_ne_nil hsuf with ⟨c, u, rfl⟩
    simp only [byteLen]
    have := c.utf8Size_pos
    omega
  induction pre using line_induction with
  | h1 a ha =>
    rw [canonPos_no_nl a ha, pos_from_byte_eq, byteLen_append]
    rw [if_neg (by omega)]
    rw [if_neg (by simp; omega : ¬((byteLen a == byteLen a + byteLen suf) = true))]
    rcases exists_line_split suf with hnu | ⟨u, v, hu, rfl⟩
    · have hno : '\n' ∉ a ++ suf := by
        intro hm
        rcases List.mem_append.mp hm with h1 | h1
        · exact ha h1
        · exact hnu h1
      have hlob : lineOfByte (a ++ suf) (byteLen a) = 0 := by
        apply lineOfByte_no_nl _ hno
        rw [byteLen_append]
        omega
      rw [hlob, byteOfLine_zero, lineAt_no_nl_zero _ hno, Nat.sub_zero, byteTake_len]
    · have hassoc : a ++ (u ++ '\n' :: v) = (a ++ u) ++ '\n' :: v := by
        simp [List.append_assoc]
      have hau : '\n' ∉ a ++ u := by
        intro hm
        rcases List.mem_append.mp hm with h1 | h1
        · exact ha h1
        · exact hu h1
      rw [hassoc]
      have hlob : lineOfByte ((a ++ u) ++ '\n' :: v) (byteLen a) = 0 := by
        apply lineOfByte_nl_lt _ _ hau
        rw [byteLen_append]
        omega
      rw [hlob, byteOfLine_zero, lineAt_nl_zero _ _ hau, Nat.sub_zero, byteTake_len a u]
  | h2 a r ha ih =>
    rw [canonPos_nl a r ha]
    have hassoc : (a ++ '\n' :: r) ++ suf = a ++ '\n' :: (r ++ suf) := by simp
    rw [hassoc, byteLen_append_cons_nl, pos_from_byte_nl_shift a (r ++ suf) ha (byteLen r), ih]
    rfl

/-- A successful `get_byte` stays within the buffer. -/
theorem get_byte_le (s : Txt) (pos : Pos) (b : Nat) (hok : get_byte s pos = .ok b) :
    b ≤ byteLen s := by
  obtain ⟨pre, suf, rfl, hb, -, -⟩ := get_byte_split s pos b hok
  rw [byteLen_append]
  omega

/-! ### Unfolding lemmas for the edit executor -/

theorem apply_edit_insert_eq (s : Txt) (pos : Pos) (t : Txt) :
    apply_edit s (.Insert pos t) =
      (get_byte s pos).bind (fun b =>
        .ok (byteTake b s ++ t ++ byteDrop b s,
          ⟨.Insert pos t, .Delete pos (calc_cursor_pos (.Insert pos t))⟩)) := rfl

theorem apply_edit_delete_eq (s : Txt) (p q : Pos) :
    apply_edit s (.Delete p q) =
      (get_byte s p).bind (fun a => (get_byte s q).bind (fun b =>
        .ok (byteTake a s ++ byteDrop b s,
          ⟨.Delete p q, .Insert p (deletedRange s a b)⟩))) := rfl

theorem apply_edit_insert_ok (s : Txt) (pos : Pos) (t : Txt) (b : Nat)
    (h : get_byte s pos = .ok b) :
    apply_edit s (.Insert pos t) =
      .ok (byteTake b s ++ t ++ byteDrop b s,
        ⟨.Insert pos t, .Delete pos (calc_cursor_pos (.Insert pos t))⟩) := by
  rw [apply_edit_insert_eq, h]
  rfl

theorem apply_edit_insert_err (s : Txt) (pos : Pos) (t : Txt) (e : EditErr)
    (h : get_byte s pos = .error e) :
    apply_edit s (.Insert pos t) = .error e := by
  rw [apply_edit_insert_eq, h]
  rfl

theorem apply_edit_delete_ok (s : Txt) (p q : Pos) (a b : Nat)
    (ha : get_byte s p = .ok a) (hb : get_byte s q = .ok b) :
    apply_edit s (.Delete p q) =
      .ok (byteTake a s ++ byteDrop b s,
        ⟨.Delete p q, .Insert p (deletedRange s a b)⟩) := by
  rw [apply_edit_delete_eq, ha, hb]
  rfl

theorem apply_edit_delete_err_left (s : Txt) (p q : Pos) (e : EditErr)
    (h : get_byte s p = .error e) :
    apply_edit s (.Delete p q) = .error e := by
  rw [apply_edit_delete_eq, h]
  rfl

theorem apply_edit_delete_err_right (s : Txt) (p q : Pos) (a : Nat) (e : EditErr)
    (ha : get_byte s p = .ok a) (h : get_byte s q = .error e) :
    apply_edit s (.Delete p q) = .error e := by
  rw [apply_edit_delete_eq, ha]
  simp only [Except.bind]
  rw [h]

theorem handle_insert_eq (te : TextEditable) (cursor : Pos) (t : Txt) :
    handle_edit_event te cursor (.InsertText t) =
      (match apply_edit te.inner (.Insert cursor t) with
       | .error _ => (te, .Noop, none)
       | .ok (s', entry) =>
         (⟨s', te.log.push_entry entry⟩, .Dirty,
           some (calc_cursor_pos (.Insert cursor t)))) := rfl

theorem handle_delete_eq (te : TextEditable) (cursor : Pos) (u : Unit) (d : LeftRight) :
    handle_edit_event te cursor (.Delete u d) =
      (match saturating_offset te.inner cursor u d with
       | .error _ => (te, .Noop, none)
       | .ok other =>
         let startStop := match d with
           | .Left => (other, cursor)
           | .Right => (cursor, other)
         match apply_edit te.inner (.Delete startStop.1 startStop.2) with
         | .error _ => (te, .Noop, none)
         | .ok (s', entry) =>
           (⟨s', te.log.push_entry entry⟩, .Dirty,
             some (calc_cursor_pos (.Delete startStop.1 startStop.2)))) := rfl

theorem handle_undo_eq (te : TextEditable) (cursor : Pos) :
    handle_edit_event te cursor .Undo =
      (match te.log.undo with
       | (some e, log') =>
         (match apply_edit te.inner e with
          | .error _ => (⟨te.inner, log'⟩, .Noop, none)
          | .ok (s', _) => (⟨s', log'⟩, .Dirty, some (calc_cursor_pos e)))
       | (none, _) => (te, .Noop, none)) := rfl

theorem handle_redo_eq (te : TextEditable) (cursor : Pos) :
    handle_edit_event te cursor .Redo =
      (match te.log.redo with
       | (some e, log') =>
         (match apply_edit te.inner e with
          | .error _ => (⟨te.inner, log'⟩, .Noop, none)
          | .ok (s', _) => (⟨s', log'⟩, .Dirty, some (calc_cursor_pos e)))
       | (none, _) => (te, .Noop, none)) := rfl

theorem handle_move_h_eq (te : TextEditable) (cursor : Pos) (u : Unit) (d : LeftRight) :
    handle_edit_event te cursor (.Move (.Horizontal u d)) =
      (match saturating_offset te.inner cursor u d with
       | .error _ => (te, .Noop, none)
       | .ok p => (te, .Noop, some p)) := rfl

theorem handle_move_up_eq (te : TextEditable) (cursor : Pos) :
    handle_edit_event te cursor (.Move .Up) =
      (if 0 < cursor.line then
        match get_line_char_len te.inner (cursor.line - 1) with
        | .error _ => (te, .Noop, none)
        | .ok charLen => (te, .Noop, some ⟨cursor.line - 1, min cursor.column charLen⟩)
      else (te, .Noop, some cursor)) := rfl

theorem handle_move_down_eq (te : TextEditable) (cursor : Pos) :
    handle_edit_event te cursor (.Move .Down) =
      (if cursor.line < lineLen te.inner then
        match get_line_char_len te.inner (cursor.line + 1) with
        | .error _ => (te, .Noop, none)
        | .ok charLen => (te, .Noop, some ⟨cursor.line + 1, min cursor.column charLen⟩)
      else (te, .Noop, some cursor)) := rfl

theorem byteLen_eq_sum (l : Txt) : byteLen l = (l.map Char.utf8Size).sum := by
  induction l with
  | nil => rfl
  | cons c r ih => simp [byteLen, ih]

theorem lastEndsNewline_eq_isEmpty_or (s : Txt) :
    lastEndsNewline s = (s.isEmpty || endsWithNewlineClass s) := by
  rw [lastEndsNewline_eq_lastCharNewline]
  unfold lastCharNewline endsWithNewlineClass
  cases s with
  | nil => rfl
  | cons c r =>
    rcases getLast?_ne_none (c :: r) (by simp) with ⟨d, hd⟩
    rw [hd]
    simp

/-! ### Claim theorems -/

/-- C10: on a completely empty buffer (zero bytes, zero lines), Position
(0,0) is accepted by the coordinate mapper: `get_byte` returns `ok 0`
through the simulated-final-newline branch even though the buffer has no
last line ending in a newline, and `InsertText` at (0,0) on an empty field
succeeds with outcome `Dirty` for every inserted text. -/
theorem c10_empty_buffer_origin :
    byteLen ([] : Txt) = 0 ∧
    lineLen ([] : Txt) = 0 ∧
    endsWithNewlineClass ([] : Txt) = false ∧
    is_simulated_final_newline ([] : Txt) ⟨0, 0⟩ = true ∧
    get_byte ([] : Txt) ⟨0, 0⟩ = .ok 0 ∧
    (∀ t : Txt,
      (handle_edit_event (textEditableOfRope []) ⟨0, 0⟩ (.InsertText t)).2.1 = .Dirty ∧
      (handle_edit_event (textEditableOfRope []) ⟨0, 0⟩ (.InsertText t)).1.inner = t) := by
  refine ⟨rfl, rfl, rfl, rfl, rfl, ?_⟩
  intro t
  rw [handle_insert_eq]
  dsimp only [textEditableOfRope]
  rw [apply_edit_insert_ok ([] : Txt) ⟨0, 0⟩ t 0 rfl]
  refine ⟨rfl, ?_⟩
  show byteTake 0 [] ++ t ++ byteDrop 0 [] = t
  simp [byteTake, byteDrop]

/-- C2 counterexample: on the completely empty buffer, Position (0,0) has
`pos.line >= line_count` (0 >= 0) and the text does not end with a newline,
so the claim as stated predicts `OutOfBounds`; the code's
simulated-final-newline branch nevertheless accepts it and returns byte 0. -/
theorem c2_counterexample :
    get_byte ([] : Txt) ⟨0, 0⟩ = .ok 0 ∧
    lineLen ([] : Txt) ≤ 0 ∧
    endsWithNewlineClass ([] : Txt) = false := by
  exact ⟨rfl, by decide, rfl⟩

/-- C2 (amended): `get_byte` computes exactly the spec's `position_to_byte`
rule, once the simulated-final-newline case is read as also covering the
empty buffer ("the text ends with a newline **or is empty**"); in
particular, on buffer "abc\n" the Position (1,0) is valid with byte offset
4, and inserting "x" there yields "abc\nx". -/
theorem c2_position_to_byte :
    (∀ (s : Txt) (pos : Pos), get_byte s pos = spec_position_to_byte s pos) ∧
    get_byte ("abc\n").toList ⟨1, 0⟩ = .ok 4 ∧
    (handle_edit_event (textEditableOfRope ("abc\n").toList) ⟨1, 0⟩
      (.InsertText ("x").toList)).1.inner = ("abc\nx").toList := by
  refine ⟨?_, by decide, by decide⟩
  intro s pos
  obtain ⟨l, c⟩ := pos
  rw [get_byte_mk]
  unfold spec_position_to_byte
  dsimp only
  rw [lastEndsNewline_eq_isEmpty_or]
  simp only [byteLen_eq_sum]

/-- C9 counterexample: constructing the editable field from "abc\n" with the
cursor-at-end option places the cursor at (0,3) — the end of the last real
line — while `byte_to_position` maps the buffer's byte length 4 to the
simulated-final-newline Position (1,0). -/
theorem c9_counterexample :
    (from_rope ("abc\n").toList true).cursor = ⟨0, 3⟩ ∧
    pos_from_byte ("abc\n").toList (byteLen ("abc\n").toList) = .ok ⟨1, 0⟩ ∧
    (⟨0, 3⟩ : Pos) ≠ ⟨1, 0⟩ := by
  exact ⟨rfl, by decide, by decide⟩

/-- C9 (amended): construction with the cursor-at-end option places the
cursor at `(line_count - 1, character count of the last real line)`; this
coincides with `byte_to_position(byte_length)` exactly when the text does
not end with a newline-class character (for a text that does, the code puts
the cursor at the end of the last real line, not at the simulated slot);
without the option the cursor is (0,0). -/
theorem c9_from_rope (s : Txt) :
    (from_rope s false).cursor = ⟨0, 0⟩ ∧
    (from_rope s true).cursor = ⟨lineLen s - 1, ((cropLines s).getLastD []).length⟩ ∧
    (endsWithNewlineClass s = false →
      pos_from_byte s (byteLen s) = .ok (from_rope s true).cursor) := by
  refine ⟨rfl, rfl, ?_⟩
  intro hend
  by_cases h0 : s = []
  · subst h0
    rfl
  · have hlc : ¬(lastCharNewline s = true) := by
      unfold lastCharNewline
      unfold endsWithNewlineClass at hend
      rcases getLast?_ne_none s h0 with ⟨d, hd⟩
      rw [hd] at hend ⊢
      rw [hend]
      simp
    rw [pos_from_byte_eq]
    rw [if_neg (by omega : ¬(byteLen s < byteLen s))]
    rw [if_pos (by simp : ((byteLen s : Nat) == byteLen s) = true)]
    rw [if_neg hlc]
    rfl

theorem stripCR_append_cons (x : Txt) (c : Char) (y : Txt) (hy : y ≠ []) :
    stripCR (x ++ c :: y) = x ++ c :: stripCR y := by
  unfold stripCR
  rw [getLast?_append_cons_right x c y hy]
  by_cases h : y.getLast? = some '\r'
  · rw [if_pos h, if_pos h]
    rw [show (x ++ c :: y).dropLast = x ++ (c :: y).dropLast from
      List.dropLast_append_of_ne_nil x (by simp)]
    rcases List.exists_cons_of_ne_nil hy with ⟨d, u, rfl⟩
    rfl
  · rw [if_neg h, if_neg h]

theorem no_nl_stripCR (l : Txt) (h : '\n' ∉ l) : '\n' ∉ stripCR l := by
  unfold stripCR
  split
  · intro hm
    exact h (List.dropLast_subset l hm)
  · exact h

theorem rustLines_ne_nil (t : Txt) (ht : t ≠ []) : rustLines t ≠ [] := by
  unfold rustLines
  simp [rawLines_eq_nil_iff, ht]

/-- The last element of the Rust `lines()` model, in closed form. -/
theorem rustLines_getLastD (t : Txt) :
    (rustLines t).getLastD [] = tailAfterNl (rustLine t) := by
  induction t using line_induction with
  | h1 a ha =>
    by_cases h0 : a = []
    · subst h0
      rfl
    · have hrl : rustLines a = [rustLine a] := by
        unfold rustLines
        rw [rawLines_no_nl a ha, if_neg h0]
        rfl
      rw [hrl]
      have hnl : rustLine a = a := by
        unfold rustLine
        rw [if_neg (fun hh => ha (mem_of_getLast?_eq hh))]
      rw [hnl]
      exact (tailAfterNl_no_nl a ha).symm
  | h2 a r ha ih =>
    by_cases hr : r = []
    · subst hr
      have hrl : rustLines (a ++ '\n' :: []) = [rustLine (a ++ ['\n'])] := by
        unfold rustLines
        rw [show (a ++ '\n' :: ([] : Txt)) = a ++ ['\n'] from rfl, rawLines_nl a [] ha]
        rfl
      have hline : rustLine (a ++ ['\n']) = stripCR a := by
        unfold rustLine
        rw [if_pos (getLast?_snoc a '\n'), dropLast_snoc]
      rw [hrl, hline]
      show stripCR a = tailAfterNl (stripCR a)
      exact (tailAfterNl_no_nl _ (no_nl_stripCR a ha)).symm
    · have hrl : rustLines (a ++ '\n' :: r) = rustLine (a ++ ['\n']) :: rustLines r := by
        unfold rustLines
        rw [rawLines_nl a r ha]
        rfl
      rw [hrl, getLastD_cons_of_ne_nil _ _ _ (rustLines_ne_nil r hr), ih]
      -- remains: tailAfterNl (rustLine r) = tailAfterNl (rustLine (a ++ '\n' :: r))
      unfold rustLine
      rw [getLast?_append_cons_right a '\n' r hr]
      by_cases hend : r.getLast? = some '\n'
      · rw [if_pos hend, if_pos hend]
        rw [show (a ++ '\n' :: r).dropLast = a ++ ('\n' :: r).dropLast from
          List.dropLast_append_of_ne_nil a (by simp)]
        rcases List.exists_cons_of_ne_nil hr with ⟨d, u, rfl⟩
        rw [show ('\n' :: d :: u).dropLast = '\n' :: (d :: u).dropLast from rfl]
        by_cases hu : (d :: u).dropLast = []
        · have hscr : stripCR (a ++ ['\n']) = a ++ ['\n'] := by
            unfold stripCR
            rw [if_neg (by rw [getLast?_snoc]; decide)]
          rw [hu, hscr]
          rw [show (a ++ ['\n'] : Txt) = a ++ '\n' :: [] from rfl, tailAfterNl_append_nl]
          rfl
        · rw [stripCR_append_cons a '\n' _ hu, tailAfterNl_append_nl]
      · rw [if_neg hend, if_neg hend, tailAfterNl_append_nl]

/-- C4: the Line boundary scan consumes exactly one newline when the
adjacent character in the scan direction is newline-class, and otherwise
consumes all characters up to but not including the next newline — the
code's byte count equals the spec's rule on every character run; in
particular, on buffer "abc\ndef\n" with cursor (1,3), Delete(Line, Left)
yields buffer "abc\n\n" with outcome Dirty and cursor (1,0). -/
theorem c4_line_boundary :
    (∀ l : List Char, count_bytes_till_line_boundary l = spec_line_count l) ∧
    (handle_edit_event (textEditableOfRope ("abc\ndef\n").toList) ⟨1, 3⟩
      (.Delete .Line .Left)).1.inner = ("abc\n\n").toList ∧
    (handle_edit_event (textEditableOfRope ("abc\ndef\n").toList) ⟨1, 3⟩
      (.Delete .Line .Left)).2.1 = .Dirty ∧
    (handle_edit_event (textEditableOfRope ("abc\ndef\n").toList) ⟨1, 3⟩
      (.Delete .Line .Left)).2.2 = some ⟨1, 0⟩ := by
  refine ⟨?_, by decide, by decide, by decide⟩
  intro l
  cases l with
  | nil => rfl
  | cons c r =>
    unfold count_bytes_till_line_boundary spec_line_count
    by_cases hc : isNewlineChar c = true
    · simp [hc]
    · simp only [Bool.not_eq_true] at hc
      simp [hc, sumUtf8]

/-- C3: at the failing input the word scan diverges from the spec's
two-phase rule.  On "foo bar" from (0,0) the code and the rule agree on
(0,3), the claim's own example.  But U+0085 (NEL) is a 2-byte newline-class
character, and on "\u0085ab" from (0,0) phase 1 consumes its 2 bytes; the
code then resumes with `it.skip(count)` — skipping `count` iterator items
although `count` is a byte total, i.e. two characters instead of one — so
it consumes NEL and 'a' for 3 bytes and stops at (0,2), while the rule's
phase 2 consumes the alphanumeric run "ab" for a total of 4 bytes, landing
at (0,3) ≠ (0,2).  So the code's scan is not the spec's rule. -/
theorem c3_word_scan_divergence :
    (handle_edit_event (textEditableOfRope ("foo bar").toList) ⟨0, 0⟩
      (.Move (.Horizontal .Word .Right))).2.2 = some ⟨0, 3⟩ ∧
    count_bytes_till_word_boundary ("foo bar").toList = 3 ∧
    spec_word_count ("foo bar").toList = 3 ∧
    count_bytes_till_word_boundary ("\u0085ab").toList = 3 ∧
    spec_word_count ("\u0085ab").toList = 4 ∧
    (handle_edit_event (textEditableOfRope ("\u0085ab").toList) ⟨0, 0⟩
      (.Move (.Horizontal .Word .Right))).2.2 = some ⟨0, 2⟩ ∧
    pos_from_byte ("\u0085ab").toList 4 = .ok ⟨0, 3⟩ ∧
    isNewlineChar '\u0085' = true ∧
    ('\u0085').utf8Size = 2 ∧
    count_bytes_till_word_boundary ("\u0085ab").toList ≠
      spec_word_count ("\u0085ab").toList ∧
    (⟨0, 2⟩ : Pos) ≠ ⟨0, 3⟩ := by
  decide

/-- C5 counterexample: inserting "abc\n" on the empty buffer at (0,0)
succeeds and yields cursor (1,3) — the code takes the character count of
`lines().last()` which is "abc" — while the claim's "character count of the
portion of text after its last newline" is 0, predicting cursor (1,0). -/
theorem c5_counterexample :
    (handle_edit_event (textEditableOfRope []) ⟨0, 0⟩
      (.InsertText ("abc\n").toList)).2.1 = .Dirty ∧
    (handle_edit_event (textEditableOfRope []) ⟨0, 0⟩
      (.InsertText ("abc\n").toList)).2.2 = some ⟨1, 3⟩ ∧
    (tailAfterNl ("abc\n").toList).length = 0 ∧
    (⟨1, 3⟩ : Pos) ≠ ⟨1, 0⟩ := by
  refine ⟨by decide, by decide, by decide, by decide⟩

/-- C5 (amended): a successful InsertText(t) yields the post-edit cursor
computed as: the line increases by the number of newline-class characters
of t; if t contains none, the column grows by t's character count;
otherwise the column is the character count of t's final line in the sense
of Rust `str::lines` — the text after the last newline computed after first
removing one trailing `'\n'` (and a `'\r'` immediately before it). -/
theorem c5_insert_cursor (te : TextEditable) (cursor : Pos) (t : Txt)
    (te' : TextEditable) (p : Pos)
    (h : handle_edit_event te cursor (.InsertText t) = (te', .Dirty, some p)) :
    p.line = cursor.line + (t.filter isNewlineChar).length ∧
    ((t.filter isNewlineChar).length = 0 → p.column = cursor.column + t.length) ∧
    ((t.filter isNewlineChar).length ≠ 0 → p.column = spec_insert_column t) := by
  have hp : p = calc_cursor_pos (.Insert cursor t) := by
    rw [handle_insert_eq] at h
    cases happ : apply_edit te.inner (.Insert cursor t) with
    | error e =>
      rw [happ] at h
      simp at h
    | ok pr =>
      obtain ⟨s', entry⟩ := pr
      rw [happ] at h
      have := congrArg (fun x => x.2.2) h
      simp at this
      exact this.symm
  subst hp
  unfold calc_cursor_pos
  dsimp only
  refine ⟨rfl, ?_, ?_⟩
  · intro hz
    rw [if_pos hz]
  · intro hnz
    rw [if_neg hnz, rustLines_getLastD t]
    rfl

/-- C5 witness: the amended insert-cursor claim evaluated at a concrete
successful insertion (text "x\ny" at (0,1) on buffer "ab" gives cursor
(1,1)). -/
theorem c5_insert_cursor_witness :
    (⟨1, 1⟩ : Pos).line = (⟨0, 1⟩ : Pos).line +
      (("x\ny").toList.filter isNewlineChar).length ∧
    (⟨1, 1⟩ : Pos).column = spec_insert_column ("x\ny").toList := by
  have h := c5_insert_cursor (textEditableOfRope ("ab").toList) ⟨0, 1⟩ ("x\ny").toList
    (handle_edit_event (textEditableOfRope ("ab").toList) ⟨0, 1⟩
      (.InsertText ("x\ny").toList)).1
    ⟨1, 1⟩ (by decide)
  exact ⟨h.1, h.2.2 (by decide)⟩

/-- A fresh `InsertText`/`Delete` that succeeds pushes exactly one entry
onto the log. -/
theorem handle_fresh_log (te te₂ : TextEditable) (c p : Pos) (op : TextOp)
    (hfresh : (∃ t, op = .InsertText t) ∨ (∃ u d, op = .Delete u d))
    (h : handle_edit_event te c op = (te₂, .Dirty, some p)) :
    ∃ entry, te₂.log = te.log.push_entry entry := by
  rcases hfresh with ⟨t, rfl⟩ | ⟨u, d, rfl⟩
  · rw [handle_insert_eq] at h
    cases happ : apply_edit te.inner (.Insert c t) with
    | error e =>
      rw [happ] at h
      simp at h
    | ok pr =>
      obtain ⟨s', entry⟩ := pr
      rw [happ] at h
      refine ⟨entry, ?_⟩
      have := congrArg (fun x => x.1.log) h
      simpa using this.symm
  · rw [handle_delete_eq] at h
    cases hsat : saturating_offset te.inner c u d with
    | error e =>
      rw [hsat] at h
      simp at h
    | ok other =>
      rw [hsat] at h
      dsimp only at h
      cases happ : apply_edit te.inner
          (.Delete (match d with | .Left => (other, c) | .Right => (c, other)).1
            (match d with | .Left => (other, c) | .Right => (c, other)).2) with
      | error e =>
        rw [happ] at h
        simp at h
      | ok pr =>
        obtain ⟨s', entry⟩ := pr
        rw [happ] at h
        refine ⟨entry, ?_⟩
        have := congrArg (fun x => x.1.log) h
        simpa using this.symm

/-- When `next_index` has reached the end of the log, `Redo` is a no-op that
mutates nothing. -/
theorem redo_noop_at_top (te : TextEditable) (c : Pos)
    (hn : te.log.entries.length ≤ te.log.next_index) :
    handle_edit_event te c .Redo = (te, .Noop, none) := by
  rw [handle_redo_eq]
  unfold Log.redo
  rw [List.get?_eq_none.mpr hn]

/-- C8: after a successful Undo and a successful fresh InsertText/Delete,
Redo is a Noop and mutates nothing — the fresh edit truncates the log to
`next_index` before appending, so `next_index` points past the end and the
discarded redo branch never replays. -/
theorem c8_redo_noop_after_fresh_edit (te te₁ te₂ : TextEditable)
    (c c₁ c₂ p₁ p₂ : Pos) (op : TextOp)
    (_hu : handle_edit_event te c .Undo = (te₁, .Dirty, some p₁))
    (hfresh : (∃ t, op = .InsertText t) ∨ (∃ u d, op = .Delete u d))
    (he : handle_edit_event te₁ c₁ op = (te₂, .Dirty, some p₂)) :
    handle_edit_event te₂ c₂ .Redo = (te₂, .Noop, none) := by
  obtain ⟨entry, hlog⟩ := handle_fresh_log te₁ te₂ c₁ p₂ op hfresh he
  apply redo_noop_at_top
  rw [hlog]
  unfold Log.push_entry
  dsimp only
  rw [List.length_append, List.length_take]
  simp

/-- C8 witness: insert "a" into "x", undo it, insert "b", then Redo — the
Redo is a Noop leaving the state untouched. -/
theorem c8_redo_noop_witness :
    handle_edit_event
      (handle_edit_event
        (handle_edit_event
          (handle_edit_event (textEditableOfRope ("x").toList) ⟨0, 1⟩
            (.InsertText ("a").toList)).1
          ⟨0, 2⟩ .Undo).1
        ⟨0, 1⟩ (.InsertText ("b").toList)).1
      ⟨0, 2⟩ .Redo =
    ((handle_edit_event
        (handle_edit_event
          (handle_edit_event (textEditableOfRope ("x").toList) ⟨0, 1⟩
            (.InsertText ("a").toList)).1
          ⟨0, 2⟩ .Undo).1
        ⟨0, 1⟩ (.InsertText ("b").toList)).1, .Noop, none) := by
  exact c8_redo_noop_after_fresh_edit
    (handle_edit_event (textEditableOfRope ("x").toList) ⟨0, 1⟩
      (.InsertText ("a").toList)).1
    (handle_edit_event
      (handle_edit_event (textEditableOfRope ("x").toList) ⟨0, 1⟩
        (.InsertText ("a").toList)).1
      ⟨0, 2⟩ .Undo).1
    _ ⟨0, 2⟩ ⟨0, 1⟩ ⟨0, 2⟩ ⟨0, 1⟩ ⟨0, 2⟩
    (.InsertText ("b").toList) (by decide) (Or.inl ⟨_, rfl⟩) (by decide)

/-- Whenever the edit executor produces no new cursor — which is exactly
what every internal `OutOfBounds` abort and every exhausted Undo/Redo does —
the outcome is `Noop` and the buffer text is byte-for-byte unchanged. -/
theorem handle_none_noop (te : TextEditable) (c : Pos) (op : TextOp)
    (h : (handle_edit_event te c op).2.2 = none) :
    (handle_edit_event te c op).2.1 = .Noop ∧
    (handle_edit_event te c op).1.inner = te.inner := by
  cases op with
  | Move md =>
    cases md with
    | Up =>
      rw [handle_move_up_eq] at h ⊢
      by_cases hl : 0 < c.line
      · rw [if_pos hl] at h ⊢
        cases hg : get_line_char_len te.inner (c.line - 1) with
        | error e => exact ⟨rfl, rfl⟩
        | ok n =>
          rw [hg] at h
          simp at h
      · rw [if_neg hl] at h
        simp at h
    | Down =>
      rw [handle_move_down_eq] at h ⊢
      by_cases hl : c.line < lineLen te.inner
      · rw [if_pos hl] at h ⊢
        cases hg : get_line_char_len te.inner (c.line + 1) with
        | error e => exact ⟨rfl, rfl⟩
        | ok n =>
          rw [hg] at h
          simp at h
      · rw [if_neg hl] at h
        simp at h
    | Horizontal u d =>
      rw [handle_move_h_eq] at h ⊢
      cases hs : saturating_offset te.inner c u d with
      | error e => exact ⟨rfl, rfl⟩
      | ok p =>
        rw [hs] at h
        simp at h
  | InsertText t =>
    rw [handle_insert_eq] at h ⊢
    cases happ : apply_edit te.inner (.Insert c t) with
    | error e => exact ⟨rfl, rfl⟩
    | ok pr =>
      obtain ⟨s', entry⟩ := pr
      rw [happ] at h
      simp at h
  | Delete u d =>
    rw [handle_delete_eq] at h ⊢
    cases hs : saturating_offset te.inner c u d with
    | error e => exact ⟨rfl, rfl⟩
    | ok other =>
      rw [hs] at h
      dsimp only at h ⊢
      cases happ : apply_edit te.inner
          (.Delete (match d with | .Left => (other, c) | .Right => (c, other)).1
            (match d with | .Left => (other, c) | .Right => (c, other)).2) with
      | error e => exact ⟨rfl, rfl⟩
      | ok pr =>
        obtain ⟨s', entry⟩ := pr
        rw [happ] at h
        simp at h
  | Redo =>
    rw [handle_redo_eq] at h ⊢
    cases hr : te.log.redo with
    | mk o log' =>
      rw [hr] at h
      cases o with
      | none => exact ⟨rfl, rfl⟩
      | some e =>
        dsimp only at h ⊢
        cases happ : apply_edit te.inner e with
        | error e2 => exact ⟨rfl, rfl⟩
        | ok pr =>
          obtain ⟨s', entry⟩ := pr
          rw [happ] at h
          simp at h
  | Undo =>
    rw [handle_undo_eq] at h ⊢
    cases hr : te.log.undo with
    | mk o log' =>
      rw [hr] at h
      cases o with
      | none => exact ⟨rfl, rfl⟩
      | some e =>
        dsimp only at h ⊢
        cases happ : apply_edit te.inner e with
        | error e2 => exact ⟨rfl, rfl⟩
        | ok pr =>
          obtain ⟨s', entry⟩ := pr
          rw [happ] at h
          simp at h

/-- C6: whenever `handle_edit_event` produces no new cursor — the shape of
every internal `OutOfBounds` abort from the Coordinate Mapper or Boundary
Scanner (and of an exhausted Undo/Redo) — the operation is an atomic no-op
for the field: the outcome is `Noop`, the buffer text is byte-for-byte
unchanged, and the caller-held cursor is unchanged. -/
theorem c6_abort_is_atomic_noop (ke : KeyboardEditable) (op : TextOp)
    (h : (handle_edit_event ke.text ke.cursor op).2.2 = none) :
    (apply_text_op ke op).2 = .Noop ∧
    (apply_text_op ke op).1.text.inner = ke.text.inner ∧
    (apply_text_op ke op).1.cursor = ke.cursor := by
  obtain ⟨h1, h2⟩ := handle_none_noop ke.text ke.cursor op h
  refine ⟨h1, h2, ?_⟩
  show (match (handle_edit_event ke.text ke.cursor op).2.2 with
        | some p => p
        | none => ke.cursor) = ke.cursor
  rw [h]

/-- C6 witness: inserting at the invalid stale cursor (5,5) on the buffer
"a" aborts as an atomic no-op. -/
theorem c6_abort_witness :
    (apply_text_op ⟨textEditableOfRope ("a").toList, ⟨5, 5⟩⟩
      (.InsertText ("x").toList)).2 = .Noop ∧
    (apply_text_op ⟨textEditableOfRope ("a").toList, ⟨5, 5⟩⟩
      (.InsertText ("x").toList)).1.text.inner = ("a").toList ∧
    (apply_text_op ⟨textEditableOfRope ("a").toList, ⟨5, 5⟩⟩
      (.InsertText ("x").toList)).1.cursor = ⟨5, 5⟩ := by
  exact c6_abort_is_atomic_noop ⟨textEditableOfRope ("a").toList, ⟨5, 5⟩⟩
    (.InsertText ("x").toList) (by decide)

/-- C9 witness: the amended construction claim evaluated on the concrete
buffer "ab". -/
theorem c9_from_rope_witness :
    (from_rope ("ab").toList false).cursor = ⟨0, 0⟩ ∧
    (from_rope ("ab").toList true).cursor =
      ⟨lineLen ("ab").toList - 1, ((cropLines ("ab").toList).getLastD []).length⟩ ∧
    pos_from_byte ("ab").toList (byteLen ("ab").toList) =
      .ok (from_rope ("ab").toList true).cursor := by
  have h := c9_from_rope ("ab").toList
  exact ⟨h.1, h.2.1, h.2.2 (by decide)⟩

/-! ### Newline bookkeeping for inserted and deleted runs -/

theorem countNl_append (x y : Txt) : countNl (x ++ y) = countNl x + countNl y :=
  List.count_append '\n' x y

theorem filter_nl_length (t : Txt) (h : ∀ c ∈ t, isNewlineChar c = true → c = '\n') :
    (t.filter isNewlineChar).length = countNl t := by
  induction t with
  | nil => rfl
  | cons c r ih =>
    have hr : ∀ x ∈ r, isNewlineChar x = true → x = '\n' :=
      fun x hx => h x (List.mem_cons_of_mem _ hx)
    have ihr := ih hr
    unfold countNl at ihr ⊢
    by_cases hc : c = '\n'
    · subst hc
      rw [List.filter_cons_of_pos (by decide), List.count_cons_self]
      simp only [List.length_cons]
      omega
    · have hcn : isNewlineChar c = false := by
        cases hcc : isNewlineChar c
        · rfl
        · exact absurd (h c (List.mem_cons_self c r) hcc) hc
      rw [List.filter_cons_of_neg (by simp [hcn]),
        List.count_cons_of_ne (fun he => hc he.symm)]
      exact ihr

theorem nl_not_mem_of_filter_nil (t : Txt) (h : (t.filter isNewlineChar).length = 0) :
    '\n' ∉ t := by
  intro hmem
  have h2 : '\n' ∈ t.filter isNewlineChar := List.mem_filter.mpr ⟨hmem, by decide⟩
  rw [List.length_eq_zero.mp h] at h2
  cases h2

theorem nl_mem_of_filter_pos (t : Txt) (hlf : ∀ c ∈ t, isNewlineChar c = true → c = '\n')
    (h : (t.filter isNewlineChar).length ≠ 0) : '\n' ∈ t := by
  cases hf : t.filter isNewlineChar with
  | nil => rw [hf] at h; simp at h
  | cons c r =>
    have hc : c ∈ t.filter isNewlineChar := by
      rw [hf]
      exact List.mem_cons_self c r
    have hm := List.mem_filter.mp hc
    have hce := hlf c hm.1 hm.2
    rw [← hce]
    exact hm.1

theorem tailAfterNl_append_no_nl (x t : Txt) (h : '\n' ∉ t) :
    tailAfterNl (x ++ t) = tailAfterNl x ++ t := by
  unfold tailAfterNl
  have hall : ∀ c ∈ t.reverse, (fun c => (c ≠ '\n' : Bool)) c = true := by
    intro c hc
    simp only [decide_eq_true_eq]
    intro hcc
    exact h (hcc ▸ List.mem_reverse.mp hc)
  rw [List.reverse_append, takeWhile_append_all hall, List.reverse_append,
    List.reverse_reverse]

theorem tailAfterNl_append_mem (x t : Txt) (h : '\n' ∈ t) :
    tailAfterNl (x ++ t) = tailAfterNl t := by
  obtain ⟨u, v, rfl⟩ := List.append_of_mem h
  rw [show x ++ (u ++ '\n' :: v) = (x ++ u) ++ '\n' :: v from (List.append_assoc x u _).symm]
  rw [tailAfterNl_append_nl, tailAfterNl_append_nl]

/-- Inserting a well-behaved run `t` (its newline-class characters are all
`'\n'`, and if it ends in a newline its final `lines()` line is empty) at the
canonical position of `pre` moves the cursor to the canonical position of
`pre ++ t`. -/
theorem calc_insert_canon (pre t : Txt)
    (h1 : ∀ c ∈ t, isNewlineChar c = true → c = '\n')
    (h2 : t.getLast? = some '\n' → tailAfterNl t.dropLast = []) :
    calc_cursor_pos (.Insert (canonPos pre) t) = canonPos (pre ++ t) := by
  show (⟨(canonPos pre).line + (t.filter isNewlineChar).length,
      if (t.filter isNewlineChar).length = 0 then (canonPos pre).column + t.length
      else ((rustLines t).getLastD []).length⟩ : Pos) = canonPos (pre ++ t)
  have hcanon : canonPos (pre ++ t) =
      ⟨countNl pre + countNl t, (tailAfterNl (pre ++ t)).length⟩ := by
    unfold canonPos
    rw [countNl_append]
  rw [hcanon]
  by_cases hz : (t.filter isNewlineChar).length = 0
  · have hnm : '\n' ∉ t := nl_not_mem_of_filter_nil t hz
    rw [if_pos hz, filter_nl_length t h1, tailAfterNl_append_no_nl pre t hnm,
      List.length_append]
    rfl
  · have hmem : '\n' ∈ t := nl_mem_of_filter_pos t h1 hz
    rw [if_neg hz, filter_nl_length t h1, tailAfterNl_append_mem pre t hmem,
      rustLines_getLastD]
    by_cases hlast : t.getLast? = some '\n'
    · have hrcr : '\r' ∉ t := by
        intro hr
        exact absurd (h1 '\r' hr (by decide)) (by decide)
      have hncr : ¬ t.dropLast.getLast? = some '\r' := by
        intro hcr
        exact hrcr (List.dropLast_subset t (mem_of_getLast?_eq hcr))
      have hrl : rustLine t = t.dropLast := by
        unfold rustLine
        rw [if_pos hlast]
        unfold stripCR
        rw [if_neg hncr]
      have htail0 : tailAfterNl t.dropLast = [] := h2 hlast
      have htail : tailAfterNl t = [] := by
        have hsplit : t.dropLast ++ ['\n'] = t := List.dropLast_append_getLast? '\n' hlast
        calc tailAfterNl t = tailAfterNl (t.dropLast ++ '\n' :: []) := by rw [hsplit]
          _ = tailAfterNl [] := tailAfterNl_append_nl _ _
          _ = [] := rfl
      rw [hrl, htail0, htail]
      rfl
    · have hrl : rustLine t = t := by
        unfold rustLine
        rw [if_neg hlast]
      rw [hrl]
      rfl

/-! ### Log and byte-algebra helpers for the round trip -/

/-- Undoing right after `push_entry` pops exactly the pushed entry (under the
log invariant that `next_index` does not exceed the entry count). -/
theorem log_undo_push (l : Log) (e : LogEntry) (hinv : l.next_index ≤ l.entries.length) :
    (l.push_entry e).undo =
      (some e.undo, ⟨l.entries.take l.next_index ++ [e], l.next_index⟩) := by
  unfold Log.push_entry Log.undo
  simp only
  rw [if_neg (by omega : ¬ l.next_index + 1 = 0)]
  have hlen : (l.entries.take l.next_index).length = l.next_index := by
    rw [List.length_take]
    omega
  have hget : (l.entries.take l.next_index ++ [e]).get? (l.next_index + 1 - 1) = some e := by
    have h0 := List.get?_concat_length (l.entries.take l.next_index) e
    rw [hlen] at h0
    rw [Nat.add_sub_cancel ..]
    exact h0
  rw [hget]
  show (some e.undo, (⟨l.entries.take l.next_index ++ [e], l.next_index + 1 - 1⟩ : Log)) = _
  rw [Nat.add_sub_cancel ..]

theorem byteLen_eq_zero_iff (s : Txt) : byteLen s = 0 ↔ s = [] := by
  cases s with
  | nil => simp [byteLen]
  | cons c r =>
    simp only [byteLen]
    have := Char.utf8Size_pos c
    constructor
    · intro h
      exact absurd h (by omega)
    · intro h
      cases h

theorem byteTake_pos_of_ne_nil (n : Nat) (s : Txt) (h : byteTake n s ≠ []) : 1 ≤ n := by
  cases s with
  | nil => simp [byteTake] at h
  | cons c r =>
    simp only [byteTake] at h
    by_cases hc : c.utf8Size ≤ n
    · have := Char.utf8Size_pos c
      omega
    · rw [if_neg hc] at h
      simp at h

theorem byteTake_add_append (s : Txt) (a d : Nat) (hba : byteLen (byteTake a s) = a) :
    byteTake (a + d) s = byteTake a s ++ byteTake d (byteDrop a s) := by
  have h1 : byteTake (byteLen (byteTake a s) + d) (byteTake a s ++ byteDrop a s) =
      byteTake a s ++ byteTake d (byteDrop a s) := byteTake_append _ _ d
  rw [hba, byteTake_byteDrop_eq] at h1
  exact h1

theorem byteDrop_add_append (s : Txt) (a d : Nat) (hba : byteLen (byteTake a s) = a) :
    byteDrop (a + d) s = byteDrop d (byteDrop a s) := by
  have h1 : byteDrop (byteLen (byteTake a s) + d) (byteTake a s ++ byteDrop a s) =
      byteDrop d (byteDrop a s) := byteDrop_append _ _ d
  rw [hba, byteTake_byteDrop_eq] at h1
  exact h1

/-- A successful `get_byte` lands on a character boundary, and away from the
simulated slot (or whenever the simulated slot coincides with a canonical one,
e.g. when the text really ends in `'\n'`) the position is the canonical
position of the byte-prefix. -/
theorem cursor_canon_of_get_byte (s : Txt) (pos : Pos) (b : Nat)
    (hok : get_byte s pos = .ok b)
    (hsim : is_simulated_final_newline s pos = true → s = [] ∨ s.getLast? = some '\n') :
    pos = canonPos (byteTake b s) ∧ byteLen (byteTake b s) = b := by
  obtain ⟨pre, suf, hps, hb, hfalse, htrue⟩ := get_byte_split s pos b hok
  have htake : byteTake b s = pre := by
    rw [hps, ← hb]
    exact byteTake_len pre suf
  rw [htake]
  refine ⟨?_, hb⟩
  cases hs : is_simulated_final_newline s pos with
  | false => exact hfalse hs
  | true =>
    obtain ⟨hsuf, hpos⟩ := htrue hs
    have hnil : s = pre := by
      rw [hps, hsuf, List.append_nil]
    have hends := hsim hs
    rw [hnil] at hends hpos
    rw [hpos, canonPos_of_ends_nl pre hends]

/-! ### The boundary scans make strict progress on nonempty input -/

theorem count_line_boundary_pos (l : List Char) (h : l ≠ []) :
    1 ≤ count_bytes_till_line_boundary l := by
  rcases List.exists_cons_of_ne_nil h with ⟨c, r, rfl⟩
  unfold count_bytes_till_line_boundary
  have hs := Char.utf8Size_pos c
  cases hc : isNewlineChar c
  · rw [if_neg (by simp [hc])]
    simp only [List.takeWhile_cons, hc, Bool.not_false, if_pos, List.map_cons, List.sum_cons]
    omega
  · rw [if_pos (by simp [hc])]
    simp only [List.head?_cons, Option.map_some', Option.getD_some]
    omega

theorem wordTail_cons_pos (c : Char) (r : List Char) :
    1 ≤ wordTail none (c :: r) := by
  have hs := Char.utf8Size_pos c
  unfold wordTail
  omega

theorem count_word_boundary_pos (l : List Char) (h : l ≠ []) :
    1 ≤ count_bytes_till_word_boundary l := by
  rcases List.exists_cons_of_ne_nil h with ⟨c, r, rfl⟩
  unfold count_bytes_till_word_boundary
  have hs := Char.utf8Size_pos c
  simp only []
  by_cases hc : isNewlineChar c = true
  · rw [if_pos (by simp [hc])]
    have htw : (c :: r).takeWhile isNewlineChar = c :: r.takeWhile isNewlineChar := by
      rw [List.takeWhile_cons, if_pos hc]
    rw [htw]
    simp only [List.map_cons, List.sum_cons]
    omega
  · rw [if_neg (by simp [hc])]
    by_cases hw : isInlineWhitespaceChar c = true
    · have htw : (c :: r).takeWhile isInlineWhitespaceChar =
          c :: r.takeWhile isInlineWhitespaceChar := by
        rw [List.takeWhile_cons, if_pos hw]
      rw [htw]
      simp only [List.map_cons, List.sum_cons]
      omega
    · have htw : (c :: r).takeWhile isInlineWhitespaceChar = [] := by
        rw [List.takeWhile_cons, if_neg hw]
      rw [htw]
      simp only [List.map_nil, List.sum_nil, List.drop_zero, Nat.zero_add]
      exact wordTail_cons_pos c r

/-- A successful boundary-scan (`saturating_offset`) result comes from
`pos_from_byte` at an offset on the correct side of the cursor's byte offset;
on a `Left` scan over nonempty material the offset strictly decreases. -/
theorem saturating_offset_spec (s : Txt) (cursor : Pos) (u : Unit) (d : LeftRight)
    (other : Pos) (h : saturating_offset s cursor u d = .ok other) :
    ∃ byte x, get_byte s cursor = .ok byte ∧ pos_from_byte s x = .ok other ∧
      (d = .Left → x ≤ byte ∧ (byteTake byte s = [] ∨ x < byte)) ∧
      (d = .Right → byte ≤ x) := by
  cases u with
  | Char =>
    unfold saturating_offset saturating_char_offset at h
    cases hgb : get_byte s cursor with
    | error e => rw [hgb] at h; cases h
    | ok byte =>
      rw [hgb] at h
      cases d with
      | Left =>
        dsimp only at h
        cases hlast : (byteTake byte s).getLast? with
        | none =>
          rw [hlast] at h
          refine ⟨byte, byte - 0, rfl, h, ?_, fun hd => nomatch hd⟩
          intro _
          exact ⟨Nat.sub_le _ _, Or.inl (List.getLast?_eq_none_iff.mp hlast)⟩
        | some c =>
          rw [hlast] at h
          have hb1 : 1 ≤ byte := byteTake_pos_of_ne_nil byte s (by
            intro hnil
            rw [hnil] at hlast
            cases hlast)
          have hs1 := Char.utf8Size_pos c
          refine ⟨byte, byte - c.utf8Size, rfl, h, ?_, fun hd => nomatch hd⟩
          intro _
          exact ⟨Nat.sub_le _ _, Or.inr (by omega)⟩
      | Right =>
        dsimp only at h
        cases hhead : (byteDrop byte s).head? with
        | none =>
          rw [hhead] at h
          refine ⟨byte, byte + 0, rfl, h, ?_, ?_⟩
          · intro hd
            simp at hd
          · intro _
            exact Nat.le_add_right _ _
        | some c =>
          rw [hhead] at h
          refine ⟨byte, byte + c.utf8Size, rfl, h, ?_, ?_⟩
          · intro hd
            simp at hd
          · intro _
            exact Nat.le_add_right _ _
  | Word =>
    unfold saturating_offset saturating_word_boundary at h
    cases hgb : get_byte s cursor with
    | error e => rw [hgb] at h; cases h
    | ok byte =>
      rw [hgb] at h
      cases d with
      | Left =>
        dsimp only at h
        refine ⟨byte, _, rfl, h, ?_, fun hd => nomatch hd⟩
        intro _
        refine ⟨Nat.sub_le _ _, ?_⟩
        by_cases hnil : byteTake byte s = []
        · exact Or.inl hnil
        · right
          have h1 : 1 ≤ count_bytes_till_word_boundary (byteTake byte s).reverse :=
            count_word_boundary_pos _ (by
              intro hrev
              exact hnil (List.reverse_eq_nil_iff.mp hrev))
          have hb1 : 1 ≤ byte := byteTake_pos_of_ne_nil byte s hnil
          omega
      | Right =>
        dsimp only at h
        refine ⟨byte, _, rfl, h, ?_, ?_⟩
        · intro hd
          simp at hd
        · intro _
          exact Nat.le_add_right _ _
  | Line =>
    unfold saturating_offset saturating_line_boundary at h
    cases hgb : get_byte s cursor with
    | error e => rw [hgb] at h; cases h
    | ok byte =>
      rw [hgb] at h
      cases d with
      | Left =>
        dsimp only at h
        refine ⟨byte, _, rfl, h, ?_, fun hd => nomatch hd⟩
        intro _
        refine ⟨Nat.sub_le _ _, ?_⟩
        by_cases hnil : byteTake byte s = []
        · exact Or.inl hnil
        · right
          have h1 : 1 ≤ count_bytes_till_line_boundary (byteTake byte s).reverse :=
            count_line_boundary_pos _ (by
              intro hrev
              exact hnil (List.reverse_eq_nil_iff.mp hrev))
          have hb1 : 1 ≤ byte := byteTake_pos_of_ne_nil byte s hnil
          omega
      | Right =>
        dsimp only at h
        refine ⟨byte, _, rfl, h, ?_, ?_⟩
        · intro hd
          simp at hd
        · intro _
          exact Nat.le_add_right _ _

/-! ### Inversion of a successful edit -/

theorem handle_insert_inv (te te' : TextEditable) (cursor p' : Pos) (t : Txt)
    (h : handle_edit_event te cursor (.InsertText t) = (te', .Dirty, some p')) :
    ∃ b, get_byte te.inner cursor = .ok b ∧
      te' = ⟨byteTake b te.inner ++ t ++ byteDrop b te.inner,
        te.log.push_entry
          ⟨.Insert cursor t, .Delete cursor (calc_cursor_pos (.Insert cursor t))⟩⟩ ∧
      p' = calc_cursor_pos (.Insert cursor t) := by
  rw [handle_insert_eq] at h
  cases hgb : get_byte te.inner cursor with
  | error e =>
    rw [apply_edit_insert_err te.inner cursor t e hgb] at h
    simp at h
  | ok b =>
    rw [apply_edit_insert_ok te.inner cursor t b hgb] at h
    dsimp only at h
    simp only [Prod.mk.injEq, Option.some.injEq] at h
    exact ⟨b, rfl, h.1.symm, h.2.2.symm⟩

theorem handle_delete_left_inv (te te' : TextEditable) (cursor p' : Pos) (u : Unit)
    (h : handle_edit_event te cursor (.Delete u .Left) = (te', .Dirty, some p')) :
    ∃ other a b, saturating_offset te.inner cursor u .Left = .ok other ∧
      get_byte te.inner other = .ok a ∧ get_byte te.inner cursor = .ok b ∧
      te' = ⟨byteTake a te.inner ++ byteDrop b te.inner,
        te.log.push_entry
          ⟨.Delete other cursor, .Insert other (deletedRange te.inner a b)⟩⟩ ∧
      p' = other := by
  rw [handle_delete_eq] at h
  cases hsat : saturating_offset te.inner cursor u .Left with
  | error e => rw [hsat] at h; simp at h
  | ok other =>
    rw [hsat] at h
    dsimp only at h
    cases hga : get_byte te.inner other with
    | error e =>
      rw [apply_edit_delete_err_left te.inner other cursor e hga] at h
      simp at h
    | ok a =>
      cases hgb : get_byte te.inner cursor with
      | error e =>
        rw [apply_edit_delete_err_right te.inner other cursor a e hga hgb] at h
        simp at h
      | ok b =>
        rw [apply_edit_delete_ok te.inner other cursor a b hga hgb] at h
        dsimp only at h
        simp only [Prod.mk.injEq, Option.some.injEq] at h
        exact ⟨other, a, b, rfl, hga, rfl, h.1.symm, h.2.2.symm⟩

theorem handle_delete_right_inv (te te' : TextEditable) (cursor p' : Pos) (u : Unit)
    (h : handle_edit_event te cursor (.Delete u .Right) = (te', .Dirty, some p')) :
    ∃ other a b, saturating_offset te.inner cursor u .Right = .ok other ∧
      get_byte te.inner cursor = .ok a ∧ get_byte te.inner other = .ok b ∧
      te' = ⟨byteTake a te.inner ++ byteDrop b te.inner,
        te.log.push_entry
          ⟨.Delete cursor other, .Insert cursor (deletedRange te.inner a b)⟩⟩ ∧
      p' = cursor := by
  rw [handle_delete_eq] at h
  cases hsat : saturating_offset te.inner cursor u .Right with
  | error e => rw [hsat] at h; simp at h
  | ok other =>
    rw [hsat] at h
    dsimp only at h
    cases hga : get_byte te.inner cursor with
    | error e =>
      rw [apply_edit_delete_err_left te.inner cursor other e hga] at h
      simp at h
    | ok a =>
      cases hgb : get_byte te.inner other with
      | error e =>
        rw [apply_edit_delete_err_right te.inner cursor other a e hga hgb] at h
        simp at h
      | ok b =>
        rw [apply_edit_delete_ok te.inner cursor other a b hga hgb] at h
        dsimp only at h
        simp only [Prod.mk.injEq, Option.some.injEq] at h
        exact ⟨other, a, b, rfl, rfl, hgb, h.1.symm, h.2.2.symm⟩

/-- Running `Undo` when the log pops entry `e` and `apply_edit` succeeds. -/
theorem handle_undo_run (te : TextEditable) (c : Pos) (e : EditOp) (log₂ : Log)
    (hu : te.log.undo = (some e, log₂)) (s'' : Txt) (entry₂ : LogEntry)
    (happ : apply_edit te.inner e = .ok (s'', entry₂)) :
    handle_edit_event te c .Undo = (⟨s'', log₂⟩, .Dirty, some (calc_cursor_pos e)) := by
  rw [handle_undo_eq, hu]
  dsimp only
  rw [happ]

/-- C1 counterexample, four failing scenarios of the round-trip claim.
(1) On "ab" at (0,0), `Delete{Char, Right}` then `Undo` restores the text but
returns cursor (0,1), not (0,0): the undo of a right-delete is an `Insert`
and `calc_cursor_pos` places the cursor after the re-inserted text.
(2) Inserting "abc\n" at (0,0) on "xyzw" succeeds (post-edit cursor (1,3) by
the `lines().last()` rule), but the recorded inverse `Delete (0,0)→(1,3)`
resolves (1,3) to byte 7 of "abc\nxyzw", so `Undo` deletes "abc\nxyz" and
leaves "w": the text is not restored.
(3) Inserting the 2-byte newline U+0085 at (0,0) on "ab" succeeds with
post-edit cursor (1,1), but on the new buffer "\u0085ab" (one LF-line) that
position is out of bounds, so `Undo` aborts as a `Noop` leaving "\u0085ab".
(4) Inserting "x" at the simulated slot (1,0) of "a\r" succeeds, but the slot
vanishes once the text no longer ends in a newline-class character, so the
inverse `Delete (1,0)→(1,1)` aborts and `Undo` is a `Noop` leaving "a\rx". -/
theorem c1_counterexample :
    handle_edit_event (textEditableOfRope ['a', 'b']) ⟨0, 0⟩ (.Delete .Char .Right) =
      (⟨['b'], ⟨[⟨.Delete ⟨0, 0⟩ ⟨0, 1⟩, .Insert ⟨0, 0⟩ ['a']⟩], 1⟩⟩, .Dirty, some ⟨0, 0⟩) ∧
    handle_edit_event
        (⟨['b'], ⟨[⟨.Delete ⟨0, 0⟩ ⟨0, 1⟩, .Insert ⟨0, 0⟩ ['a']⟩], 1⟩⟩ : TextEditable)
        ⟨0, 0⟩ .Undo =
      (⟨['a', 'b'], ⟨[⟨.Delete ⟨0, 0⟩ ⟨0, 1⟩, .Insert ⟨0, 0⟩ ['a']⟩], 0⟩⟩, .Dirty,
        some ⟨0, 1⟩) ∧
    (⟨0, 1⟩ : Pos) ≠ ⟨0, 0⟩ ∧
    handle_edit_event (textEditableOfRope ['x', 'y', 'z', 'w']) ⟨0, 0⟩
        (.InsertText ['a', 'b', 'c', '\n']) =
      (⟨['a', 'b', 'c', '\n', 'x', 'y', 'z', 'w'],
        ⟨[⟨.Insert ⟨0, 0⟩ ['a', 'b', 'c', '\n'], .Delete ⟨0, 0⟩ ⟨1, 3⟩⟩], 1⟩⟩, .Dirty,
       some ⟨1, 3⟩) ∧
    handle_edit_event
        (⟨['a', 'b', 'c', '\n', 'x', 'y', 'z', 'w'],
          ⟨[⟨.Insert ⟨0, 0⟩ ['a', 'b', 'c', '\n'], .Delete ⟨0, 0⟩ ⟨1, 3⟩⟩], 1⟩⟩ :
          TextEditable) ⟨1, 3⟩ .Undo =
      (⟨['w'], ⟨[⟨.Insert ⟨0, 0⟩ ['a', 'b', 'c', '\n'], .Delete ⟨0, 0⟩ ⟨1, 3⟩⟩], 0⟩⟩,
       .Dirty, some ⟨0, 0⟩) ∧
    (['w'] : Txt) ≠ ['x', 'y', 'z', 'w'] ∧
    handle_edit_event (textEditableOfRope ['a', 'b']) ⟨0, 0⟩ (.InsertText ['\u0085']) =
      (⟨['\u0085', 'a', 'b'],
        ⟨[⟨.Insert ⟨0, 0⟩ ['\u0085'], .Delete ⟨0, 0⟩ ⟨1, 1⟩⟩], 1⟩⟩, .Dirty, some ⟨1, 1⟩) ∧
    handle_edit_event
        (⟨['\u0085', 'a', 'b'],
          ⟨[⟨.Insert ⟨0, 0⟩ ['\u0085'], .Delete ⟨0, 0⟩ ⟨1, 1⟩⟩], 1⟩⟩ : TextEditable)
        ⟨1, 1⟩ .Undo =
      (⟨['\u0085', 'a', 'b'],
        ⟨[⟨.Insert ⟨0, 0⟩ ['\u0085'], .Delete ⟨0, 0⟩ ⟨1, 1⟩⟩], 0⟩⟩, .Noop, none) ∧
    (['\u0085', 'a', 'b'] : Txt) ≠ ['a', 'b'] ∧
    handle_edit_event (textEditableOfRope ['a', '\r']) ⟨1, 0⟩ (.InsertText ['x']) =
      (⟨['a', '\r', 'x'], ⟨[⟨.Insert ⟨1, 0⟩ ['x'], .Delete ⟨1, 0⟩ ⟨1, 1⟩⟩], 1⟩⟩, .Dirty,
       some ⟨1, 1⟩) ∧
    handle_edit_event
        (⟨['a', '\r', 'x'], ⟨[⟨.Insert ⟨1, 0⟩ ['x'], .Delete ⟨1, 0⟩ ⟨1, 1⟩⟩], 1⟩⟩ :
          TextEditable) ⟨1, 1⟩ .Undo =
      (⟨['a', '\r', 'x'], ⟨[⟨.Insert ⟨1, 0⟩ ['x'], .Delete ⟨1, 0⟩ ⟨1, 1⟩⟩], 0⟩⟩, .Noop,
       none) ∧
    (['a', '\r', 'x'] : Txt) ≠ ['a', '\r'] := by
  decide

/-- C1 (amended round trip): for a buffer whose log satisfies the reachable
invariant `next_index ≤ entries.length` and a valid cursor (away from the
spurious simulated slot of text not ending in a real `'\n'`), any successful
`InsertText`/`Delete` followed by `Undo` restores the buffer text
byte-for-byte.  The cursor is restored for every `InsertText` whose text uses
only `'\n'` newlines and, if newline-terminated, ends in an empty final line,
and for every `Delete{_, Left}` whose removed run satisfies the same two
conditions; for `Delete{_, Right}` the undo cursor is instead placed after
the re-inserted text (see the counterexample). -/
theorem c1_undo_roundtrip (te te' : TextEditable) (cursor p' : Pos) (op : TextOp)
    (hinv : te.log.next_index ≤ te.log.entries.length)
    (hcur : is_simulated_final_newline te.inner cursor = true →
      te.inner = [] ∨ te.inner.getLast? = some '\n')
    (hop : (∃ t, op = .InsertText t ∧ (∀ c ∈ t, isNewlineChar c = true → c = '\n') ∧
              (t.getLast? = some '\n' → tailAfterNl t.dropLast = [])) ∨
           (∃ u d, op = .Delete u d))
    (hfwd : handle_edit_event te cursor op = (te', .Dirty, some p')) :
    ∃ te'' p'', handle_edit_event te' p' .Undo = (te'', .Dirty, some p'') ∧
      te''.inner = te.inner ∧
      ((∃ t, op = .InsertText t) → p'' = cursor) ∧
      (∀ u start deleted, op = .Delete u .Left →
        te'.log.entries.getLast? = some ⟨.Delete start cursor, .Insert start deleted⟩ →
        (∀ c ∈ deleted, isNewlineChar c = true → c = '\n') →
        (deleted.getLast? = some '\n' → tailAfterNl deleted.dropLast = []) →
        p'' = cursor) := by
  rcases hop with ⟨t, rfl, hlf, hend⟩ | ⟨u, d, rfl⟩
  · -- InsertText
    obtain ⟨b, hgb, hte', hp'⟩ := handle_insert_inv te te' cursor p' t hfwd
    subst hte'
    subst hp'
    obtain ⟨hcanon, hblen⟩ := cursor_canon_of_get_byte te.inner cursor b hgb hcur
    have hpost : calc_cursor_pos (.Insert cursor t) = canonPos (byteTake b te.inner ++ t) := by
      rw [hcanon]
      exact calc_insert_canon _ t hlf hend
    have hgbPost : get_byte (byteTake b te.inner ++ t ++ byteDrop b te.inner)
        (calc_cursor_pos (.Insert cursor t)) = .ok (byteLen (byteTake b te.inner ++ t)) := by
      rw [hpost]
      exact get_byte_canon (byteTake b te.inner ++ t) (byteDrop b te.inner)
    have hgbCur : get_byte (byteTake b te.inner ++ t ++ byteDrop b te.inner) cursor = .ok b := by
      have h0 := get_byte_canon (byteTake b te.inner) (t ++ byteDrop b te.inner)
      rw [hblen, ← List.append_assoc] at h0
      rw [hcanon]
      exact h0
    have e1 : byteTake b (byteTake b te.inner ++ t ++ byteDrop b te.inner) =
        byteTake b te.inner := by
      have h0 := byteTake_len (byteTake b te.inner) (t ++ byteDrop b te.inner)
      rw [hblen, ← List.append_assoc] at h0
      exact h0
    have e2 : byteDrop (byteLen (byteTake b te.inner ++ t))
        (byteTake b te.inner ++ t ++ byteDrop b te.inner) = byteDrop b te.inner :=
      byteDrop_len _ _
    have happUndo : apply_edit (byteTake b te.inner ++ t ++ byteDrop b te.inner)
        (.Delete cursor (calc_cursor_pos (.Insert cursor t))) =
        .ok (te.inner,
          ⟨.Delete cursor (calc_cursor_pos (.Insert cursor t)),
           .Insert cursor (deletedRange (byteTake b te.inner ++ t ++ byteDrop b te.inner) b
             (byteLen (byteTake b te.inner ++ t)))⟩) := by
      rw [apply_edit_delete_ok _ _ _ b (byteLen (byteTake b te.inner ++ t)) hgbCur hgbPost,
        e1, e2, byteTake_byteDrop_eq]
    have hrun : handle_edit_event
        (⟨byteTake b te.inner ++ t ++ byteDrop b te.inner,
          te.log.push_entry
            ⟨.Insert cursor t, .Delete cursor (calc_cursor_pos (.Insert cursor t))⟩⟩ :
          TextEditable)
        (calc_cursor_pos (.Insert cursor t)) .Undo =
        (⟨te.inner,
          ⟨te.log.entries.take te.log.next_index ++
            [⟨.Insert cursor t, .Delete cursor (calc_cursor_pos (.Insert cursor t))⟩],
           te.log.next_index⟩⟩, .Dirty,
         some (calc_cursor_pos
           (.Delete cursor (calc_cursor_pos (.Insert cursor t))))) :=
      handle_undo_run _ _ _ _
        (log_undo_push te.log
          ⟨.Insert cursor t, .Delete cursor (calc_cursor_pos (.Insert cursor t))⟩ hinv)
        te.inner _ happUndo
    refine ⟨⟨te.inner,
      ⟨te.log.entries.take te.log.next_index ++
        [⟨.Insert cursor t, .Delete cursor (calc_cursor_pos (.Insert cursor t))⟩],
       te.log.next_index⟩⟩, cursor, hrun, rfl, fun _ => rfl, ?_⟩
    intro u start deleted heq
    simp at heq
  · -- Delete
    cases d with
    | Left =>
      obtain ⟨other, a, bb, hsat, hga, hgbb, hte', hp'⟩ :=
        handle_delete_left_inv te te' cursor p' u hfwd
      subst hte'
      rw [hp']
      obtain ⟨byte, x, hgb0, hpfb, hLeft, -⟩ :=
        saturating_offset_spec te.inner cursor u .Left other hsat
      obtain ⟨hxb, hstrict⟩ := hLeft rfl
      have haeq : a = byteLen (byteTake x te.inner) :=
        Except.ok.inj (hga.symm.trans (pos_from_byte_get_byte te.inner x other hpfb))
      have hbyteq : byte = bb := Except.ok.inj (hgb0.symm.trans hgbb)
      obtain ⟨hcanonC, hblenB⟩ := cursor_canon_of_get_byte te.inner cursor bb hgbb hcur
      have hax : a ≤ x := by
        rw [haeq]
        exact byteLen_byteTake_le x te.inner
      have habb : a ≤ bb := by omega
      obtain ⟨hcanonA, hblenA⟩ :
          other = canonPos (byteTake a te.inner) ∧ byteLen (byteTake a te.inner) = a := by
        rcases get_byte_split te.inner other a hga with ⟨pre, suf, hps, hblen', hfalse, htrue⟩
        have hpreTake : byteTake a te.inner = pre := by
          rw [hps, ← hblen']
          exact byteTake_len pre suf
        rw [hpreTake]
        refine ⟨?_, hblen'⟩
        cases hsimS : is_simulated_final_newline te.inner other with
        | false => exact hfalse hsimS
        | true =>
          obtain ⟨hsuf, hposS⟩ := htrue hsimS
          have hslen : byteLen te.inner = a := by
            rw [hps, hsuf, List.append_nil]
            exact hblen'
          have hbble : bb ≤ byteLen te.inner := get_byte_le te.inner cursor bb hgbb
          rcases hstrict with hnil | hlt
          · have hbyte0 : byte = 0 := by
              rw [hbyteq] at hnil
              rw [hnil] at hblenB
              simp [byteLen] at hblenB
              omega
            have hs0 : te.inner = [] := by
              apply (byteLen_eq_zero_iff te.inner).mp
              omega
            have hpre0 : pre = [] := by
              have h3 := hps
              rw [hs0, hsuf, List.append_nil] at h3
              exact h3.symm
            rw [hposS, hpre0, hs0]
            rfl
          · exact absurd hlt (by omega)
      have haddsub : a + (bb - a) = bb := by omega
      have htk := byteTake_add_append te.inner a (bb - a) hblenA
      have hdr := byteDrop_add_append te.inner a (bb - a) hblenA
      rw [haddsub] at htk hdr
      have hgb1 : get_byte (byteTake a te.inner ++ byteDrop bb te.inner) other = .ok a := by
        rw [hcanonA]
        have h0 := get_byte_canon (byteTake a te.inner) (byteDrop bb te.inner)
        rw [hblenA] at h0
        exact h0
      have e1 : byteTake a (byteTake a te.inner ++ byteDrop bb te.inner) =
          byteTake a te.inner := by
        have h0 := byteTake_len (byteTake a te.inner) (byteDrop bb te.inner)
        rw [hblenA] at h0
        exact h0
      have e2 : byteDrop a (byteTake a te.inner ++ byteDrop bb te.inner) =
          byteDrop bb te.inner := by
        have h0 := byteDrop_len (byteTake a te.inner) (byteDrop bb te.inner)
        rw [hblenA] at h0
        exact h0
      have ebuf : byteTake a te.inner ++ deletedRange te.inner a bb ++ byteDrop bb te.inner =
          te.inner := by
        rw [List.append_assoc, hdr]
        show byteTake a te.inner ++
          (byteTake (bb - a) (byteDrop a te.inner) ++
            byteDrop (bb - a) (byteDrop a te.inner)) = te.inner
        rw [byteTake_byteDrop_eq]
        exact byteTake_byteDrop_eq a te.inner
      have happUndo : apply_edit (byteTake a te.inner ++ byteDrop bb te.inner)
          (.Insert other (deletedRange te.inner a bb)) =
          .ok (te.inner,
            ⟨.Insert other (deletedRange te.inner a bb),
             .Delete other
               (calc_cursor_pos (.Insert other (deletedRange te.inner a bb)))⟩) := by
        rw [apply_edit_insert_ok _ _ _ a hgb1, e1, e2, ebuf]
      have hrun : handle_edit_event
          (⟨byteTake a te.inner ++ byteDrop bb te.inner,
            te.log.push_entry
              ⟨.Delete other cursor, .Insert other (deletedRange te.inner a bb)⟩⟩ :
            TextEditable) other .Undo =
          (⟨te.inner,
            ⟨te.log.entries.take te.log.next_index ++
              [⟨.Delete other cursor, .Insert other (deletedRange te.inner a bb)⟩],
             te.log.next_index⟩⟩, .Dirty,
           some (calc_cursor_pos (.Insert other (deletedRange te.inner a bb)))) :=
        handle_undo_run _ _ _ _
          (log_undo_push te.log
            ⟨.Delete other cursor, .Insert other (deletedRange te.inner a bb)⟩ hinv)
          te.inner _ happUndo
      refine ⟨⟨te.inner,
        ⟨te.log.entries.take te.log.next_index ++
          [⟨.Delete other cursor, .Insert other (deletedRange te.inner a bb)⟩],
         te.log.next_index⟩⟩,
        calc_cursor_pos (.Insert other (deletedRange te.inner a bb)), hrun, rfl, ?_, ?_⟩
      · rintro ⟨t', ht'⟩
        simp at ht'
      · intro u' start deleted heq hentry hlf hend
        have hsome : some
            (⟨.Delete other cursor, .Insert other (deletedRange te.inner a bb)⟩ : LogEntry) =
            some ⟨.Delete start cursor, .Insert start deleted⟩ := by
          rw [← hentry]
          exact (List.getLast?_concat _).symm
        injection hsome with hpair
        injection hpair with hedit hundo
        injection hundo with hstart hdel
        rw [← hdel] at hlf hend
        rw [hcanonA,
          calc_insert_canon (byteTake a te.inner) (deletedRange te.inner a bb) hlf hend]
        show canonPos (byteTake a te.inner ++ byteTake (bb - a) (byteDrop a te.inner)) = cursor
        rw [← htk]
        exact hcanonC.symm
    | Right =>
      obtain ⟨other, a, bb, hsat, hga, hgbb, hte', hp'⟩ :=
        handle_delete_right_inv te te' cursor p' u hfwd
      subst hte'
      rw [hp']
      obtain ⟨hcanonC, hblenA⟩ := cursor_canon_of_get_byte te.inner cursor a hga hcur
      obtain ⟨byte, x, hgb0, hpfb, -, hRight⟩ :=
        saturating_offset_spec te.inner cursor u .Right other hsat
      have hbx := hRight rfl
      have hba : byte = a := Except.ok.inj (hgb0.symm.trans hga)
      have hbbeq : bb = byteLen (byteTake x te.inner) :=
        Except.ok.inj (hgbb.symm.trans (pos_from_byte_get_byte te.inner x other hpfb))
      have habb : a ≤ bb := by
        rw [hbbeq]
        exact boundary_le_byteLen_byteTake a x te.inner hblenA (by omega)
      have haddsub : a + (bb - a) = bb := by omega
      have htk := byteTake_add_append te.inner a (bb - a) hblenA
      have hdr := byteDrop_add_append te.inner a (bb - a) hblenA
      rw [haddsub] at htk hdr
      have hgb1 : get_byte (byteTake a te.inner ++ byteDrop bb te.inner) cursor = .ok a := by
        rw [hcanonC]
        have h0 := get_byte_canon (byteTake a te.inner) (byteDrop bb te.inner)
        rw [hblenA] at h0
        exact h0
      have e1 : byteTake a (byteTake a te.inner ++ byteDrop bb te.inner) =
          byteTake a te.inner := by
        have h0 := byteTake_len (byteTake a te.inner) (byteDrop bb te.inner)
        rw [hblenA] at h0
        exact h0
      have e2 : byteDrop a (byteTake a te.inner ++ byteDrop bb te.inner) =
          byteDrop bb te.inner := by
        have h0 := byteDrop_len (byteTake a te.inner) (byteDrop bb te.inner)
        rw [hblenA] at h0
        exact h0
      have ebuf : byteTake a te.inner ++ deletedRange te.inner a bb ++ byteDrop bb te.inner =
          te.inner := by
        rw [List.append_assoc, hdr]
        show byteTake a te.inner ++
          (byteTake (bb - a) (byteDrop a te.inner) ++
            byteDrop (bb - a) (byteDrop a te.inner)) = te.inner
        rw [byteTake_byteDrop_eq]
        exact byteTake_byteDrop_eq a te.inner
      have happUndo : apply_edit (byteTake a te.inner ++ byteDrop bb te.inner)
          (.Insert cursor (deletedRange te.inner a bb)) =
          .ok (te.inner,
            ⟨.Insert cursor (deletedRange te.inner a bb),
             .Delete cursor
               (calc_cursor_pos (.Insert cursor (deletedRange te.inner a bb)))⟩) := by
        rw [apply_edit_insert_ok _ _ _ a hgb1, e1, e2, ebuf]
      have hrun : handle_edit_event
          (⟨byteTake a te.inner ++ byteDrop bb te.inner,
            te.log.push_entry
              ⟨.Delete cursor other, .Insert cursor (deletedRange te.inner a bb)⟩⟩ :
            TextEditable) cursor .Undo =
          (⟨te.inner,
            ⟨te.log.entries.take te.log.next_index ++
              [⟨.Delete cursor other, .Insert cursor (deletedRange te.inner a bb)⟩],
             te.log.next_index⟩⟩, .Dirty,
           some (calc_cursor_pos (.Insert cursor (deletedRange te.inner a bb)))) :=
        handle_undo_run _ _ _ _
          (log_undo_push te.log
            ⟨.Delete cursor other, .Insert cursor (deletedRange te.inner a bb)⟩ hinv)
          te.inner _ happUndo
      refine ⟨⟨te.inner,
        ⟨te.log.entries.take te.log.next_index ++
          [⟨.Delete cursor other, .Insert cursor (deletedRange te.inner a bb)⟩],
         te.log.next_index⟩⟩,
        calc_cursor_pos (.Insert cursor (deletedRange te.inner a bb)), hrun, rfl, ?_, ?_⟩
      · rintro ⟨t', ht'⟩
        simp at ht'
      · intro u' start deleted heq
        simp at heq

/-- C1 witness: inserting "y" at (0,1) on the buffer "x" and undoing restores
the buffer and the cursor. -/
theorem c1_undo_roundtrip_witness :
    ∃ te'' p'', handle_edit_event
        (⟨['x', 'y'], ⟨[⟨.Insert ⟨0, 1⟩ ['y'], .Delete ⟨0, 1⟩ ⟨0, 2⟩⟩], 1⟩⟩ : TextEditable)
        ⟨0, 2⟩ .Undo = (te'', .Dirty, some p'') ∧
      te''.inner = (textEditableOfRope ['x']).inner ∧
      ((∃ t, TextOp.InsertText ['y'] = .InsertText t) → p'' = ⟨0, 1⟩) ∧
      (∀ u start deleted, TextOp.InsertText ['y'] = .Delete u .Left →
        (⟨['x', 'y'], ⟨[⟨.Insert ⟨0, 1⟩ ['y'], .Delete ⟨0, 1⟩ ⟨0, 2⟩⟩], 1⟩⟩ :
          TextEditable).log.entries.getLast? =
            some ⟨.Delete start ⟨0, 1⟩, .Insert start deleted⟩ →
        (∀ c ∈ deleted, isNewlineChar c = true → c = '\n') →
        (deleted.getLast? = some '\n' → tailAfterNl deleted.dropLast = []) →
        p'' = ⟨0, 1⟩) :=
  c1_undo_roundtrip (textEditableOfRope ['x'])
    ⟨['x', 'y'], ⟨[⟨.Insert ⟨0, 1⟩ ['y'], .Delete ⟨0, 1⟩ ⟨0, 2⟩⟩], 1⟩⟩
    ⟨0, 1⟩ ⟨0, 2⟩ (.InsertText ['y']) (by decide) (by decide)
    (Or.inl ⟨['y'], rfl, by decide, by decide⟩) (by decide)

/-- C7 counterexample: Line-unit symmetry fails at the interior position
(1,1) of "xy\nabc\ndef": Line-Right lands at (1,3) and Line-Left from there
lands at (1,0), not (1,1) — neither move saturates against a buffer edge. -/
theorem c7_counterexample :
    handle_edit_event (textEditableOfRope ['x', 'y', '\n', 'a', 'b', 'c', '\n', 'd', 'e', 'f'])
        ⟨1, 1⟩ (.Move (.Horizontal .Line .Right)) =
      (textEditableOfRope ['x', 'y', '\n', 'a', 'b', 'c', '\n', 'd', 'e', 'f'], .Noop,
        some ⟨1, 3⟩) ∧
    handle_edit_event (textEditableOfRope ['x', 'y', '\n', 'a', 'b', 'c', '\n', 'd', 'e', 'f'])
        ⟨1, 3⟩ (.Move (.Horizontal .Line .Left)) =
      (textEditableOfRope ['x', 'y', '\n', 'a', 'b', 'c', '\n', 'd', 'e', 'f'], .Noop,
        some ⟨1, 0⟩) ∧
    (⟨1, 0⟩ : Pos) ≠ ⟨1, 1⟩ :=
  ⟨by decide, by decide, by decide⟩

/-- C7 (amended): Char-unit horizontal symmetry.  At any valid cursor with at
least one character to its right (so the Right move is interior and does not
saturate), `Move(Horizontal{Char, Right})` then `Move(Horizontal{Char, Left})`
returns to the original position.  For unit Line the symmetry fails at
interior positions (see the counterexample). -/
theorem c7_char_symmetry (te : TextEditable) (cursor : Pos) (b : Nat) (c : Char) (rest : Txt)
    (hgb : get_byte te.inner cursor = .ok b)
    (hdrop : byteDrop b te.inner = c :: rest)
    (p1 : Pos)
    (hright : handle_edit_event te cursor (.Move (.Horizontal .Char .Right)) =
      (te, .Noop, some p1)) :
    handle_edit_event te p1 (.Move (.Horizontal .Char .Left)) = (te, .Noop, some cursor) := by
  rw [handle_move_h_eq] at hright
  unfold saturating_offset saturating_char_offset at hright
  rw [hgb] at hright
  dsimp only at hright
  rw [hdrop, List.head?_cons] at hright
  dsimp only at hright
  have hpfb : pos_from_byte te.inner (b + c.utf8Size) = .ok p1 := by
    cases hpf : pos_from_byte te.inner (b + c.utf8Size) with
    | error e =>
      rw [hpf] at hright
      simp at hright
    | ok q =>
      rw [hpf] at hright
      dsimp only at hright
      simp only [Prod.mk.injEq, Option.some.injEq] at hright
      rw [hright.2.2]
  obtain ⟨hcanon, hblen⟩ :
      cursor = canonPos (byteTake b te.inner) ∧ byteLen (byteTake b te.inner) = b := by
    obtain ⟨pre, suf, hps, hb, hfalse, htrue⟩ := get_byte_split te.inner cursor b hgb
    have hpreTake : byteTake b te.inner = pre := by
      rw [hps, ← hb]
      exact byteTake_len pre suf
    rw [hpreTake]
    refine ⟨?_, hb⟩
    cases hsim : is_simulated_final_newline te.inner cursor with
    | false => exact hfalse hsim
    | true =>
      obtain ⟨hsuf, -⟩ := htrue hsim
      have hdnil : byteDrop b te.inner = [] := by
        rw [hps, hsuf, ← hb]
        exact byteDrop_len pre []
      rw [hdnil] at hdrop
      simp at hdrop
  have htake : byteTake (b + c.utf8Size) te.inner = byteTake b te.inner ++ [c] := by
    rw [byteTake_add_append te.inner b c.utf8Size hblen, hdrop]
    have h1 : byteTake c.utf8Size (c :: rest) = [c] := by
      simp only [byteTake]
      rw [if_pos (Nat.le_refl _), Nat.sub_self, byteTake_zero]
    rw [h1]
  have hgb1 : get_byte te.inner p1 = .ok (b + c.utf8Size) := by
    have h0 := pos_from_byte_get_byte te.inner (b + c.utf8Size) p1 hpfb
    rw [htake, byteLen_append] at h0
    have h2 : byteLen [c] = c.utf8Size := by simp [byteLen]
    rw [h2, hblen] at h0
    exact h0
  rw [handle_move_h_eq]
  unfold saturating_offset saturating_char_offset
  rw [hgb1]
  dsimp only
  rw [htake, getLast?_snoc]
  dsimp only
  rw [Nat.add_sub_cancel]
  have hpfb2 : pos_from_byte te.inner b = .ok (canonPos (byteTake b te.inner)) := by
    have h0 := pos_from_byte_canon (byteTake b te.inner) (c :: rest) (by simp)
    rw [hblen] at h0
    rw [← hdrop] at h0
    rw [byteTake_byteDrop_eq] at h0
    exact h0
  rw [hpfb2, ← hcanon]

/-- C7 witness: Char-Right then Char-Left from (0,0) on the buffer "ab"
returns to (0,0). -/
theorem c7_char_symmetry_witness :
    handle_edit_event (textEditableOfRope ['a', 'b']) ⟨0, 1⟩
        (.Move (.Horizontal .Char .Left)) =
      (textEditableOfRope ['a', 'b'], .Noop, some ⟨0, 0⟩) :=
  c7_char_symmetry (textEditableOfRope ['a', 'b']) ⟨0, 0⟩ 0 'a' ['b'] (by decide) (by decide)
    ⟨0, 1⟩ (by decide)

end TasksSpec
